import Mathlib

/-!
Verification of the fogfish/ring consistent-hashing data structure.

The Go source (ring.go, hash.go) is embedded shallowly:

* byte strings (Go `string`, `[]byte`) become `Bytes := List Nat`;
* `Hash` mirrors the Go struct with fields `hash`, `addr`, `rank`, `node`;
* the Go map `map[string]bool` becomes an association list with the Go map
  semantics: a read of a missing key yields the zero value `false`;
* the configured hasher `func() hash.Hash` becomes a function
  `Bytes → Bytes` from the written byte stream to the digest;
* Go slice indexing becomes `List.getD` (reads are in range in every use
  proved about; out-of-range digest reads are tracked by explicit
  panic predicates where a claim is about panics).

Definitions follow the Go control flow (loops with early `break` become
structural recursions over the loop's index list).
-/

/-- Byte strings: node identifiers, keys and digests. -/
abbrev Bytes := List Nat

/-- `Hash` value on the ring (hash.go): consistent hash of the shard,
address and rank of the claiming token, owning node identifier. -/
structure Hash where
  hash : Nat
  addr : Nat
  rank : Int
  node : Bytes
deriving DecidableEq, Repr

/-- Default value used for (always in-bounds) list reads. -/
def h0 : Hash := { hash := 0, addr := 0, rank := 0, node := [] }

/-- Read shard `i`, Go `ring.hashes[i]`. -/
def getH (hs : List Hash) (i : Nat) : Hash := hs.getD i h0

/-- `Hashes.update` (hash.go): write the claiming token's address, rank and
node into a shard entry, keeping its canonical hash. -/
def update (hs : List Hash) (shard : Nat) (addr : Nat) (rank : Int) (node : Bytes) : List Hash :=
  hs.set shard { hash := (getH hs shard).hash, addr := addr, rank := rank, node := node }

/-- `Hashes.updateNode` (hash.go): copy only the `node` field. -/
def updateNode (hs : List Hash) (shard : Nat) (src : Hash) : List Hash :=
  hs.set shard { getH hs shard with node := src.node }

/-- `Hashes.contains` (hash.go). -/
def containsNode (hs : List Hash) (node : Bytes) : Bool :=
  hs.any (fun x => x.node == node)

/-- Go map read `nodes[k]`: value of the key, `false` (zero value) if absent. -/
def lookupNode (l : List (Bytes × Bool)) (k : Bytes) : Bool :=
  match l.find? (fun p => p.1 == k) with
  | some p => p.2
  | none => false

/-- Go map membership `_, exists := nodes[k]`. -/
def hasNode (l : List (Bytes × Bool)) (k : Bytes) : Bool :=
  (l.find? (fun p => p.1 == k)).isSome

/-- Go map write `nodes[k] = v`. -/
def setNode (l : List (Bytes × Bool)) (k : Bytes) (v : Bool) : List (Bytes × Bool) :=
  if hasNode l k then l.map (fun p => if p.1 == k then (p.1, v) else p) else l ++ [(k, v)]

/-- Go map delete `delete(nodes, k)`. -/
def delNode (l : List (Bytes × Bool)) (k : Bytes) : List (Bytes × Bool) :=
  l.filter (fun p => ¬ p.1 == k)

/-- The ring (ring.go): configuration `m`, `q`, `t`, `hasher` and internal
state `arc`, `hashes`, `nodes`. -/
structure RingS where
  m : Nat
  q : Nat
  t : Nat
  hasher : Bytes → Bytes
  arc : Nat
  hashes : List Hash
  nodes : List (Bytes × Bool)

/-- `highest()`: highest address of the ring, `2^m - 1`. -/
def RingS.highest (r : RingS) : Nat := 2 ^ r.m - 1

/-- `segment()`: cardinality of a shard, `highest/q + 1`.  (In Go, `q = 0`
panics here with a division by zero; see `NewPanics`.) -/
def RingS.segment (r : RingS) : Nat := r.highest / r.q + 1

/-- `addressShard(shard)`: ring address of a shard, `shard*arc - 1`. -/
def RingS.addressShard (r : RingS) (shard : Nat) : Nat := shard * r.arc - 1

/-- `addresses()`: the canonical address of each of the `q` shards. -/
def RingS.addresses (r : RingS) : List Nat :=
  (List.range r.q).map (fun i => r.addressShard (i + 1))

/-- The little-endian address read from the first `m/8` digest bytes
(`addressHash`, address part).  Out-of-range bytes read as 0 here; the Go
panic on a short digest is captured by `digestShort`. -/
def RingS.digestAddr (r : RingS) (h : Bytes) : Nat :=
  (List.range' 1 (r.m / 8 - 1)).foldl (fun a i => a ||| (h.getD i 0) <<< (8 * i)) (h.getD 0 0)

/-- `addressHash(hash)`: shard index and address for a digest. -/
def RingS.addressHash (r : RingS) (h : Bytes) : Nat × Nat :=
  let addr := r.digestAddr h
  ((addr / r.arc) % r.q, addr)

/-- `hash(key, hash)`: digest of the key bytes followed by the previous
digest (nil on the first call). -/
def RingS.hashOf (r : RingS) (key : Bytes) (h : Option Bytes) : Bytes :=
  match h with
  | none => r.hasher key
  | some d => r.hasher (key ++ d)

/-- `address(key)`: shard and address of a key. -/
def RingS.address (r : RingS) (key : Bytes) : Nat × Nat :=
  r.addressHash (r.hashOf key none)

/-- The iterated token digests of a node: `digest 0 = hasher(node)`,
`digest (k+1) = hasher(node ++ digest k)` — the Go `Join` loop's running
`hash` value at rank `k`. -/
def RingS.digest (r : RingS) (node : Bytes) : Nat → Bytes
  | 0 => r.hashOf node none
  | k + 1 => r.hashOf node (some (r.digest node k))

/-- One iteration of the `Join` allocation loop at a given rank: the Go
switch deciding whether the token claims the shard. -/
def RingS.tokenStep (r : RingS) (node : Bytes) (hs : List Hash) (rank : Nat) : List Hash :=
  let sa := r.addressHash (r.digest node rank)
  let shard := sa.1
  let addr := sa.2
  let main := getH hs shard
  if main.addr = 0 then update hs shard addr rank node
  else if main.rank ≠ 0 ∧ (rank : Int) = 0 then update hs shard addr rank node
  else if main.rank = (rank : Int) ∧ main.addr < addr then update hs shard addr rank node
  else if main.rank > (rank : Int) then update hs shard addr rank node
  else hs

/-- The `Join` allocation loop over ranks `0 .. t-1`. -/
def RingS.applyTokens (r : RingS) (node : Bytes) (hs : List Hash) : List Hash :=
  (List.range r.t).foldl (r.tokenStep node) hs

/-- The scan of `repair`'s first loop: Go `for i := q-1; i > 0; i--`,
returning the first claimed shard index, stopping before index 0. -/
def scanDown1 (hs : List Hash) : Nat → Option Nat
  | 0 => none
  | i + 1 => if (getH hs (i + 1)).rank ≠ -1 then some (i + 1) else scanDown1 hs i

/-- `repair` step 1: if shard 0 is unclaimed, copy the node of the first
claimed shard found scanning from `q-1` down to `1`. -/
def repair1 (q : Nat) (hs : List Hash) : List Hash :=
  if (getH hs 0).rank = -1 then
    match scanDown1 hs (q - 1) with
    | some i => updateNode hs 0 (getH hs i)
    | none => hs
  else hs

/-- `repair` step 2: walk shards `1 .. q-1`; an unclaimed shard copies the
node of its predecessor (in the current, already partially repaired state). -/
def repair2 (q : Nat) (hs : List Hash) : List Hash :=
  (List.range' 1 (q - 1)).foldl
    (fun h i => if (getH h i).rank = -1 then updateNode h i (getH h (i - 1)) else h) hs

/-- `repair()`: fill unallocated shards. -/
def repairR (q : Nat) (hs : List Hash) : List Hash := repair2 q (repair1 q hs)

/-- `empty()`: reset the node set and all shard entries. -/
def RingS.emptyR (r : RingS) : RingS :=
  { r with
    nodes := []
    hashes := r.addresses.map (fun a => { hash := a, addr := 0, rank := -1, node := [] }) }

/-- `New(...)`: build a ring from a configuration (options collapsed into
explicit `m`, `q`, `t`, `hasher` parameters), computing `arc` and resetting
the state. -/
def newRing (m q t : Nat) (hasher : Bytes → Bytes) : RingS :=
  let r0 : RingS :=
    { m := m, q := q, t := t, hasher := hasher, arc := 0, hashes := [], nodes := [] }
  let r1 := { r0 with arc := r0.segment }
  r1.emptyR

/-- `Join(node)`: a known member is only reactivated; a fresh node runs the
allocation loop, then `repair`, then is inserted as an active member. -/
def RingS.Join (r : RingS) (node : Bytes) : RingS :=
  if hasNode r.nodes node then { r with nodes := setNode r.nodes node true }
  else
    { r with
      hashes := repairR r.q (r.applyTokens node r.hashes)
      nodes := setNode r.nodes node true }

/-- Fold `Join` over a list of nodes. -/
def joinAll (r : RingS) (l : List Bytes) : RingS := l.foldl RingS.Join r

/-- `Leave(node)`: a non-member is a no-op; otherwise delete the node,
reset the ring and re-`Join` every remaining member. -/
def RingS.Leave (r : RingS) (node : Bytes) : RingS :=
  if ¬ hasNode r.nodes node then r
  else joinAll r.emptyR ((delNode r.nodes node).map Prod.fst)

/-- `Handoff(node)`: record the node as inactive (created if absent, as the
Go map write does). -/
def RingS.Handoff (r : RingS) (node : Bytes) : RingS :=
  { r with nodes := setNode r.nodes node false }

/-- `distinctNodes(n, fromShard)` walk (ring.go): collect shard entries of
distinct nodes walking clockwise, with the Go loop's early break. -/
def distinctGo (r : RingS) (n : Nat) (fromShard : Nat) :
    List Nat → Nat × List Hash → Nat × List Hash
  | [], acc => acc
  | i :: rest, acc =>
    let last := (fromShard + i) % r.q
    let h := getH r.hashes last
    let head := if containsNode acc.2 h.node then acc.2 else acc.2 ++ [h]
    if head.length = n then (last, head) else distinctGo r n fromShard rest (last, head)

/-- `distinctNodes(n, fromShard)`. -/
def RingS.distinctNodes (r : RingS) (n : Nat) (fromShard : Nat) : Nat × List Hash :=
  distinctGo r n fromShard (List.range r.q) (0, [])

/-- `primaryNodes(n, coord, hashes)`: the active-member subset of the
candidates, each re-addressed to the coordinator's hash. -/
def RingS.primaryNodes (r : RingS) (coord : Hash) (hashes : List Hash) : List Hash :=
  hashes.foldl
    (fun acc h =>
      if lookupNode r.nodes h.node then
        acc ++ [{ hash := coord.hash, addr := h.addr, rank := h.rank, node := h.node }]
      else acc) []

/-- The handoff collection loop of `SuccessorOf` (ring.go, the
`for i := 1; i < q; i++` loop with its break). -/
def handoffGo (r : RingS) (coord : Hash) (last : Nat) (hn : Int) (primary : List Hash) :
    List Nat → List Hash → List Hash
  | [], acc => acc
  | i :: rest, acc =>
    let h := getH r.hashes ((last + i) % r.q)
    let acc' :=
      if lookupNode r.nodes h.node ∧ ¬ containsNode acc h.node ∧
          ¬ containsNode primary h.node then
        acc ++ [{ hash := coord.hash, addr := h.addr, rank := h.rank, node := h.node }]
      else acc
    if (acc'.length : Int) = hn then acc' else handoffGo r coord last hn primary rest acc'

/-- `SuccessorOf(n, key)`: primary and handoff replica lists.  (The Go
early return `(primary, nil)` when the primary list is full is expressed
as a conditional handoff component of the one returned pair.) -/
def RingS.SuccessorOf (r : RingS) (n : Nat) (key : Bytes) : List Hash × List Hash :=
  let shard := (r.address key).1
  let coord := getH r.hashes shard
  let lh := r.distinctNodes n shard
  let primary := r.primaryNodes coord lh.2
  let handoff :=
    if primary.length = n then []
    else
      handoffGo r coord lh.1 ((n : Int) - (primary.length : Int)) primary
        (List.range' 1 (r.q - 1)) []
  (primary, handoff)

/-- `Address(key)`. -/
def RingS.Address (r : RingS) (key : Bytes) : Nat := (r.address key).2

/-- `Lookup(addr)`: the shard entry the address falls into. -/
def RingS.Lookup (r : RingS) (addr : Nat) : Hash :=
  getH r.hashes ((addr / r.arc) % r.q)

/-- `LookupKey(key)`. -/
def RingS.LookupKey (r : RingS) (key : Bytes) : Hash :=
  getH r.hashes (r.address key).1

/-- The `successor`/`predecessor` collection loops: append the entry at the
walked index, breaking when `n` entries are collected. -/
def collectIdx (r : RingS) (n : Nat) (f : Nat → Nat) : List Nat → List Hash → List Hash
  | [], acc => acc
  | i :: rest, acc =>
    let acc' := acc ++ [getH r.hashes (f i)]
    if acc'.length = n then acc' else collectIdx r n f rest acc'

/-- `successor(n, shard)`: walk forward. -/
def RingS.successor (r : RingS) (n : Nat) (shard : Nat) : List Hash :=
  collectIdx r n (fun i => (shard + i) % r.q) (List.range r.q) []

/-- `predecessor(n, shard)`: walk backward. -/
def RingS.predecessor (r : RingS) (n : Nat) (shard : Nat) : List Hash :=
  collectIdx r n (fun i => (r.q + shard - i) % r.q) (List.range r.q) []

/-- `After(n, addr)`. -/
def RingS.After (r : RingS) (n : Nat) (addr : Nat) : List Hash :=
  r.successor (min n r.q) ((addr / r.arc) % r.q)

/-- `AfterKey(n, key)`. -/
def RingS.AfterKey (r : RingS) (n : Nat) (key : Bytes) : List Hash :=
  r.successor (min n r.q) (r.address key).1

/-- `Before(n, addr)`. -/
def RingS.Before (r : RingS) (n : Nat) (addr : Nat) : List Hash :=
  r.predecessor (min n r.q) ((addr / r.arc) % r.q)

/-- `BeforeKey(n, key)`. -/
def RingS.BeforeKey (r : RingS) (n : Nat) (key : Bytes) : List Hash :=
  r.predecessor (min n r.q) (r.address key).1

/-- `Size()`. -/
def RingS.Size (r : RingS) : Nat := r.nodes.length

/-- `Has(node)`. -/
def RingS.Has (r : RingS) (node : Bytes) : Bool := hasNode r.nodes node

/-- `Members()`. -/
def RingS.Members (r : RingS) : List Bytes := r.nodes.map Prod.fst

/-- `Nodes()` as a finite map: the Go map built by seeding every member
with an empty list and then appending each shard entry (in index order) to
the list of its owner.  A key is present iff it is a member or owns a
shard; its value is the in-order list of shard entries it owns. -/
def RingS.NodesMap (r : RingS) (k : Bytes) : Option (List Hash) :=
  if hasNode r.nodes k ∨ r.hashes.any (fun h => h.node == k) then
    some (r.hashes.filter (fun h => h.node == k))
  else none

/-- `Shards()`: the shard vector in index order. -/
def RingS.Shards (r : RingS) : List Hash := r.hashes

/-- A digest too short for `addressHash`: Go reads bytes `0 .. m/8 - 1`
(and always byte 0), so it panics iff the digest has fewer than
`max 1 (m/8)` bytes. -/
def digestShort (m : Nat) (h : Bytes) : Prop := h.length < max 1 (m / 8)

/-- `New` panics iff `q = 0` (division by zero in `segment`); it never
returns an error value — its Go signature is `*RingS`, not `(*RingS, error)`. -/
def NewPanics (q : Nat) : Prop := q = 0

/-- `Join(node)` panics iff some token digest is too short for
`addressHash`. -/
def JoinPanics (r : RingS) (node : Bytes) : Prop :=
  ∃ k < r.t, digestShort r.m (r.digest node k)

/-- A key-routing operation (`address(key)`) panics iff the key digest is
too short for `addressHash`. -/
def RoutePanics (r : RingS) (key : Bytes) : Prop :=
  digestShort r.m (r.hashOf key none)

instance : DecidablePred (NewPanics) := fun q => inferInstanceAs (Decidable (q = 0))

instance (m : Nat) (h : Bytes) : Decidable (digestShort m h) := by
  unfold digestShort; infer_instance

instance (r : RingS) (node : Bytes) : Decidable (JoinPanics r node) := by
  unfold JoinPanics digestShort; infer_instance

instance (r : RingS) (key : Bytes) : Decidable (RoutePanics r key) := by
  unfold RoutePanics digestShort; infer_instance

/-! ## Basic lemmas about shard-vector reads and writes -/

theorem getH_eq_getElem {hs : List Hash} {i : Nat} (h : i < hs.length) :
    getH hs i = hs[i] := by
  simp [getH, List.getD_eq_getElem?_getD, List.getElem?_eq_getElem h]

theorem getH_set_self {hs : List Hash} {i : Nat} (h : i < hs.length) (v : Hash) :
    getH (hs.set i v) i = v := by
  simp [getH, List.getD_eq_getElem?_getD, List.getElem?_set_self h]

theorem getH_set_ne {hs : List Hash} {i j : Nat} (h : i ≠ j) (v : Hash) :
    getH (hs.set i v) j = getH hs j := by
  simp [getH, List.getD_eq_getElem?_getD, List.getElem?_set_ne h]

theorem hashes_ext {hs hs' : List Hash} (hlen : hs.length = hs'.length)
    (h : ∀ i < hs.length, getH hs i = getH hs' i) : hs = hs' := by
  apply List.ext_getElem?
  intro n
  by_cases hn : n < hs.length
  · rw [List.getElem?_eq_getElem hn, List.getElem?_eq_getElem (hlen ▸ hn)]
    have := h n hn
    rw [getH_eq_getElem hn, getH_eq_getElem (hlen ▸ hn)] at this
    exact congrArg some this
  · rw [List.getElem?_eq_none (Nat.le_of_not_lt hn),
      List.getElem?_eq_none (hlen ▸ Nat.le_of_not_lt hn)]

theorem length_update (hs : List Hash) (shard addr : Nat) (rank : Int) (node : Bytes) :
    (update hs shard addr rank node).length = hs.length := by
  simp [update]

theorem length_updateNode (hs : List Hash) (shard : Nat) (src : Hash) :
    (updateNode hs shard src).length = hs.length := by
  simp [updateNode]

/-- A hasher used by concrete instantiations: the digest is empty. -/
def nilHasher : Bytes → Bytes := fun _ => []

/-- A hasher used by concrete instantiations: the digest is the first byte
of the written stream. -/
def byteHasher : Bytes → Bytes := fun b => [b.getD 0 0]

/-- A hasher used by concrete instantiations: the digest is the constant
byte 1. -/
def oneHasher : Bytes → Bytes := fun _ => [1]

/-! ## C7: Lookup consistency and wrap -/

/-- **C7.** For every `i < q` and every address `a` in
`[i*arc, (i+1)*arc - 1]`, `Lookup a` returns `Shards()[i]`, and
`Lookup ((i+1)*arc)` returns `Shards()[(i+1) % q]` (the walk wraps). -/
theorem lookup_consistency (r : RingS) (harc : r.arc = r.segment) :
    (∀ i, i < r.q → ∀ a, i * r.arc ≤ a → a ≤ (i + 1) * r.arc - 1 →
      r.Lookup a = getH r.Shards i) ∧
    (∀ i, i < r.q → r.Lookup ((i + 1) * r.arc) = getH r.Shards ((i + 1) % r.q)) := by
  have harcpos : 1 ≤ r.arc := by
    rw [harc]; exact Nat.succ_le_succ (Nat.zero_le _)
  constructor
  · intro i hi a hlo hhi
    have hmul : 1 ≤ (i + 1) * r.arc := by
      calc 1 = 1 * 1 := rfl
      _ ≤ (i + 1) * r.arc := Nat.mul_le_mul (Nat.succ_le_succ (Nat.zero_le _)) harcpos
    have hlt : a < (i + 1) * r.arc := by omega
    show getH r.hashes (a / r.arc % r.q) = getH r.Shards i
    rw [Nat.div_eq_of_lt_le hlo hlt, Nat.mod_eq_of_lt hi]
    rfl
  · intro i hi
    show getH r.hashes ((i + 1) * r.arc / r.arc % r.q) = getH r.Shards ((i + 1) % r.q)
    rw [Nat.mul_div_cancel _ harcpos]
    rfl

/-- Witness for C7 on a concrete ring (`m=8, q=4, t=1`, so `arc = 64`):
an interior address of shard 1, and the wrap at the top of shard 3. -/
theorem lookup_consistency_witness :
    (newRing 8 4 1 nilHasher).Lookup 100 = getH (newRing 8 4 1 nilHasher).Shards 1 ∧
    (newRing 8 4 1 nilHasher).Lookup ((3 + 1) * (newRing 8 4 1 nilHasher).arc) =
      getH (newRing 8 4 1 nilHasher).Shards ((3 + 1) % (newRing 8 4 1 nilHasher).q) :=
  ⟨(lookup_consistency (newRing 8 4 1 nilHasher) (by decide)).1 1 (by decide) 100
      (by decide) (by decide),
    (lookup_consistency (newRing 8 4 1 nilHasher) (by decide)).2 3 (by decide)⟩

/-! ## C8: After/Before sequences -/

theorem collectIdx_eq (r : RingS) (n : Nat) (f : Nat → Nat) :
    ∀ (c j : Nat) (acc : List Hash), acc.length < n →
      collectIdx r n f (List.range' j c) acc =
        acc ++ (List.range' j (min c (n - acc.length))).map (fun i => getH r.hashes (f i)) := by
  intro c
  induction c with
  | zero => intro j acc _; simp [collectIdx]
  | succ c ih =>
    intro j acc hacc
    rw [List.range'_succ]
    show (if (acc ++ [getH r.hashes (f j)]).length = n then acc ++ [getH r.hashes (f j)]
      else collectIdx r n f (List.range' (j + 1) c) (acc ++ [getH r.hashes (f j)])) = _
    by_cases hbreak : (acc ++ [getH r.hashes (f j)]).length = n
    · rw [if_pos hbreak]
      have h1 : min (c + 1) (n - acc.length) = 1 := by
        simp at hbreak; omega
      rw [h1, List.range'_succ]
      simp
    · rw [if_neg hbreak]
      have hlt : (acc ++ [getH r.hashes (f j)]).length < n := by
        simp at hbreak ⊢; omega
      rw [ih (j + 1) _ hlt]
      have hmin : min (c + 1) (n - acc.length) =
          min c (n - (acc ++ [getH r.hashes (f j)]).length) + 1 := by
        simp; omega
      rw [hmin, List.range'_succ]
      simp

/-- **C8 (counterexample).** The claim fails at `n = 0`: the Go loops check
the break condition only after appending, so `After(0, addr)` returns all
`q` entries instead of `min(0, q) = 0` entries. -/
theorem after_zero_counterexample :
    ¬ ((newRing 8 4 1 nilHasher).After 0 0).length =
        min 0 (newRing 8 4 1 nilHasher).q := by decide

/-- **C8 (amended: `n ≥ 1`).** For every `n ≥ 1` and every address, with
`s` the shard of the address, `After (n, addr)` is the list
`Shards()[s], Shards()[(s+1) % q], …` of exactly `min n q` entries walking
forward, and `Before (n, addr)` the analogous backward list (no duplicate
filtering: the raw shard sequence). -/
theorem after_before_sequence (r : RingS) (hq : 1 ≤ r.q) (n : Nat) (hn : 1 ≤ n)
    (addr : Nat) :
    r.After n addr = (List.range (min n r.q)).map
      (fun j => getH r.Shards ((addr / r.arc % r.q + j) % r.q)) ∧
    r.Before n addr = (List.range (min n r.q)).map
      (fun j => getH r.Shards ((r.q + addr / r.arc % r.q - j) % r.q)) := by
  have hmin : 0 < min n r.q := by omega
  have hq' : min r.q (min n r.q) = min n r.q := by omega
  constructor
  · show collectIdx r (min n r.q) _ (List.range r.q) [] = _
    rw [List.range_eq_range', collectIdx_eq r _ _ r.q 0 [] (by simpa using hmin)]
    simp only [List.length_nil, Nat.sub_zero, hq', List.nil_append]
    rw [List.range_eq_range']
    rfl
  · show collectIdx r (min n r.q) _ (List.range r.q) [] = _
    rw [List.range_eq_range', collectIdx_eq r _ _ r.q 0 [] (by simpa using hmin)]
    simp only [List.length_nil, Nat.sub_zero, hq', List.nil_append]
    rw [List.range_eq_range']
    rfl

/-- Witness for C8 (amended) on a concrete ring with `n = 2`. -/
theorem after_before_sequence_witness :
    (newRing 8 4 1 nilHasher).After 2 100 = (List.range (min 2 4)).map
      (fun j => getH (newRing 8 4 1 nilHasher).Shards ((100 / (newRing 8 4 1 nilHasher).arc % 4 + j) % 4)) ∧
    (newRing 8 4 1 nilHasher).Before 2 100 = (List.range (min 2 4)).map
      (fun j => getH (newRing 8 4 1 nilHasher).Shards ((4 + 100 / (newRing 8 4 1 nilHasher).arc % 4 - j) % 4)) :=
  after_before_sequence (newRing 8 4 1 nilHasher) (by decide) 2 (by decide) 100

/-! ## C9: Leave reactivates every remaining member -/

theorem setNode_true_all_true {l : List (Bytes × Bool)} {k : Bytes}
    (h : ∀ p ∈ l, p.2 = true) : ∀ p ∈ setNode l k true, p.2 = true := by
  intro p hp
  unfold setNode at hp
  by_cases hc : hasNode l k
  · rw [if_pos hc] at hp
    rcases List.mem_map.1 hp with ⟨p', hp', heq⟩
    by_cases hk : p'.1 == k
    · rw [if_pos hk] at heq; rw [← heq]
    · rw [if_neg hk] at heq; rw [← heq]; exact h p' hp'
  · rw [if_neg hc] at hp
    rcases List.mem_append.1 hp with hp' | hp'
    · exact h p hp'
    · rcases List.mem_singleton.1 hp' with rfl; rfl

theorem joinAll_all_true (l : List Bytes) :
    ∀ (r : RingS), (∀ p ∈ r.nodes, p.2 = true) →
      ∀ p ∈ (joinAll r l).nodes, p.2 = true := by
  induction l with
  | nil => intro r h; exact h
  | cons x l ih =>
    intro r h
    show ∀ p ∈ (joinAll (r.Join x) l).nodes, p.2 = true
    apply ih
    unfold RingS.Join
    by_cases hc : hasNode r.nodes x
    · rw [if_pos hc]; exact setNode_true_all_true h
    · rw [if_neg hc]; exact setNode_true_all_true h

/-- **C9.** After `Leave x` completes on a ring where `x` was a member,
every remaining member's active flag is `true`: the rebuild re-`Join`s each
remaining member, and `Join` always records `true`. -/
theorem leave_reactivates_members (r : RingS) (x : Bytes)
    (hx : hasNode r.nodes x = true) :
    ∀ p ∈ (r.Leave x).nodes, p.2 = true := by
  unfold RingS.Leave
  rw [if_neg (by simp [hx])]
  apply joinAll_all_true
  intro p hp
  simp [RingS.emptyR] at hp

/-- Witness for C9: on the concrete ring where `[100]` is in handoff mode,
`Leave [200]` leaves `[100]` as an active member. -/
theorem leave_reactivates_members_witness :
    (([100], true) : Bytes × Bool).2 = true :=
  leave_reactivates_members
    ((((newRing 8 4 1 byteHasher).Join [100]).Join [200]).Handoff [100]) [200]
    (by decide) ([100], true) (by decide)

/-! ## C10: Nodes() on an empty ring -/

theorem nodesMap_none_of (r : RingS) (k : Bytes) (hm : r.nodes = [])
    (hsh : ∀ h ∈ r.hashes, h.node = []) (hk : k ≠ []) : r.NodesMap k = none := by
  unfold RingS.NodesMap
  rw [if_neg]
  intro hcond
  rcases hcond with hmem | hany
  · rw [hm] at hmem; simp [hasNode] at hmem
  · rw [List.any_eq_true] at hany
    rcases hany with ⟨h, hh, hbeq⟩
    exact hk (by rw [← hsh h hh]; exact (beq_iff_eq.1 hbeq).symm)

/-- **C10.** On a ring with no members every shard's node is the empty
identifier, so `Nodes()` returns a map whose only key is the empty string,
mapped to all `q` shard entries — a key that is not a member identifier. -/
theorem nodes_map_unowned_key :
    (newRing 8 4 1 nilHasher).NodesMap [] =
        some (newRing 8 4 1 nilHasher).Shards ∧
    ∀ k : Bytes, k ≠ [] → (newRing 8 4 1 nilHasher).NodesMap k = none := by
  constructor
  · decide
  · intro k hk
    exact nodesMap_none_of _ k (by decide) (by decide) hk

/-- Witness for C10 at the concrete non-member key `[5]`. -/
theorem nodes_map_unowned_key_witness :
    (newRing 8 4 1 nilHasher).NodesMap [5] = none :=
  nodes_map_unowned_key.2 [5] (by decide)

/-! ## C3: construction-time validation and steady-state panics -/

/-- A hasher used by concrete instantiations: a constant 8-byte digest. -/
def eightHasher : Bytes → Bytes := fun _ => [1, 0, 0, 0, 0, 0, 0, 0]

/-- **C3 (counterexample).** A configuration that is invalid per the spec
(the hasher emits 0 < m/8 bytes) is not rejected: construction does not
panic (`q ≠ 0`) and signals nothing — Go's `New` returns `*Ring` with no
error channel — while the first `Join` panics in steady state reading the
digest out of range. -/
theorem construction_error_counterexample :
    ¬ NewPanics (newRing 64 8 8 nilHasher).q ∧
    digestShort (newRing 64 8 8 nilHasher).m
      ((newRing 64 8 8 nilHasher).hasher [65]) ∧
    JoinPanics (newRing 64 8 8 nilHasher) [65] := by
  refine ⟨by decide, by decide, 0, by decide, by decide⟩

/-- **C3 (amended).** The constructor performs no validation and cannot
return an error: `q = 0` panics with a division by zero inside `New`
itself, while `t = 0` or an undersized hasher construct successfully and
an undersized hasher panics at the first `Join` or key routing.  When the
hasher always emits at least `max 1 (m/8)` bytes, `Join` and key routing
never read the digest out of range. -/
theorem panic_free_with_adequate_hasher (r : RingS)
    (hh : ∀ b, max 1 (r.m / 8) ≤ (r.hasher b).length) :
    (∀ node, ¬ JoinPanics r node) ∧ (∀ key, ¬ RoutePanics r key) := by
  have hdig : ∀ (node : Bytes) (k : Nat), max 1 (r.m / 8) ≤ (r.digest node k).length := by
    intro node k
    cases k with
    | zero => exact hh node
    | succ k => exact hh (node ++ r.digest node k)
  constructor
  · rintro node ⟨k, _, hshort⟩
    unfold digestShort at hshort
    have := hdig node k
    omega
  · intro key hshort
    unfold RoutePanics digestShort at hshort
    have h2 := hh key
    have h3 : r.hashOf key none = r.hasher key := rfl
    rw [h3] at hshort
    omega

/-- Witness for C3 (amended) with an adequate 8-byte hasher on `m = 64`. -/
theorem panic_free_with_adequate_hasher_witness :
    ¬ JoinPanics (newRing 64 8 8 eightHasher) [65] ∧
    ¬ RoutePanics (newRing 64 8 8 eightHasher) [66] :=
  ⟨(panic_free_with_adequate_hasher (newRing 64 8 8 eightHasher)
      (fun _ => Nat.le.refl)).1 [65],
    (panic_free_with_adequate_hasher (newRing 64 8 8 eightHasher)
      (fun _ => Nat.le.refl)).2 [66]⟩

/-! ## C6: every SuccessorOf entry carries the coordinator's hash -/

theorem getH_mem {hs : List Hash} {i : Nat} (h : i < hs.length) : getH hs i ∈ hs := by
  rw [getH_eq_getElem h]; exact List.getElem_mem h

theorem containsNode_iff (hs : List Hash) (n : Bytes) :
    containsNode hs n = true ↔ n ∈ hs.map Hash.node := by
  unfold containsNode
  rw [List.any_eq_true]
  constructor
  · rintro ⟨x, hx, hbeq⟩
    exact List.mem_map.2 ⟨x, hx, beq_iff_eq.1 hbeq⟩
  · intro hmem
    rcases List.mem_map.1 hmem with ⟨x, hx, hxe⟩
    exact ⟨x, hx, beq_iff_eq.2 hxe⟩

theorem distinctGo_mem (r : RingS) (n fromShard : Nat) (hlen : r.hashes.length = r.q)
    (hq : 1 ≤ r.q) :
    ∀ (l : List Nat) (acc : Nat × List Hash) (e : Hash),
      e ∈ (distinctGo r n fromShard l acc).2 → e ∈ acc.2 ∨ e ∈ r.hashes := by
  intro l
  induction l with
  | nil => intro acc e he; exact Or.inl he
  | cons i rest ih =>
    intro acc e he
    have hmem : getH r.hashes ((fromShard + i) % r.q) ∈ r.hashes :=
      getH_mem (by rw [hlen]; exact Nat.mod_lt _ hq)
    rw [distinctGo] at he
    split_ifs at he with hc hb hb
    · exact Or.inl he
    · rcases ih _ e he with h' | h'
      · exact Or.inl h'
      · exact Or.inr h'
    · rcases List.mem_append.1 he with h' | h'
      · exact Or.inl h'
      · exact Or.inr (List.mem_singleton.1 h' ▸ hmem)
    · rcases ih _ e he with h' | h'
      · rcases List.mem_append.1 h' with h'' | h''
        · exact Or.inl h''
        · exact Or.inr (List.mem_singleton.1 h'' ▸ hmem)
      · exact Or.inr h'

theorem primaryNodes_mem (r : RingS) (coord : Hash) (hs : List Hash) :
    ∀ (acc : List Hash) (e : Hash),
      e ∈ hs.foldl (fun acc h =>
        if lookupNode r.nodes h.node then
          acc ++ [{ hash := coord.hash, addr := h.addr, rank := h.rank, node := h.node }]
        else acc) acc →
      e ∈ acc ∨ ∃ h ∈ hs,
        e = { hash := coord.hash, addr := h.addr, rank := h.rank, node := h.node } := by
  induction hs with
  | nil => intro acc e he; exact Or.inl he
  | cons h rest ih =>
    intro acc e he
    rw [List.foldl_cons] at he
    by_cases hc : lookupNode r.nodes h.node
    · rw [if_pos hc] at he
      rcases ih _ e he with h' | h'
      · rcases List.mem_append.1 h' with h'' | h''
        · exact Or.inl h''
        · exact Or.inr ⟨h, List.mem_cons_self h rest, List.mem_singleton.1 h''⟩
      · rcases h' with ⟨g, hg, hge⟩
        exact Or.inr ⟨g, List.mem_cons_of_mem _ hg, hge⟩
    · rw [if_neg hc] at he
      rcases ih _ e he with h' | h'
      · exact Or.inl h'
      · rcases h' with ⟨g, hg, hge⟩
        exact Or.inr ⟨g, List.mem_cons_of_mem _ hg, hge⟩

theorem handoffGo_mem (r : RingS) (coord : Hash) (last : Nat) (hn : Int)
    (primary : List Hash) (hlen : r.hashes.length = r.q) (hq : 1 ≤ r.q) :
    ∀ (l : List Nat) (acc : List Hash) (e : Hash),
      e ∈ handoffGo r coord last hn primary l acc →
      e ∈ acc ∨ ∃ h ∈ r.hashes,
        e = { hash := coord.hash, addr := h.addr, rank := h.rank, node := h.node } := by
  intro l
  induction l with
  | nil => intro acc e he; exact Or.inl he
  | cons i rest ih =>
    intro acc e he
    have hmem : getH r.hashes ((last + i) % r.q) ∈ r.hashes :=
      getH_mem (by rw [hlen]; exact Nat.mod_lt _ hq)
    rw [handoffGo] at he
    split_ifs at he with hc hb hb
    · rcases List.mem_append.1 he with h' | h'
      · exact Or.inl h'
      · exact Or.inr ⟨getH r.hashes ((last + i) % r.q), hmem, List.mem_singleton.1 h'⟩
    · rcases ih _ e he with h' | h'
      · rcases List.mem_append.1 h' with h'' | h''
        · exact Or.inl h''
        · exact Or.inr ⟨getH r.hashes ((last + i) % r.q), hmem, List.mem_singleton.1 h''⟩
      · exact h'.elim (fun g hg => Or.inr ⟨g, hg⟩)
    · exact Or.inl he
    · rcases ih _ e he with h' | h'
      · exact Or.inl h'
      · exact h'.elim (fun g hg => Or.inr ⟨g, hg⟩)

/-- **C6.** Every entry returned by `SuccessorOf` — primary and handoff —
reports the coordinator shard's canonical hash in its `hash` field, while
its `addr`, `rank` and `node` are those of a claiming shard entry of the
ring. -/
theorem successorOf_coordinator_hash (r : RingS) (hlen : r.hashes.length = r.q)
    (hq : 1 ≤ r.q) (n : Nat) (key : Bytes) :
    ∀ e ∈ (r.SuccessorOf n key).1 ++ (r.SuccessorOf n key).2,
      e.hash = (getH r.hashes (r.address key).1).hash ∧
      ∃ h ∈ r.hashes, e.addr = h.addr ∧ e.rank = h.rank ∧ e.node = h.node := by
  intro e he
  rcases List.mem_append.1 he with hfst | hsnd
  · rcases primaryNodes_mem r (getH r.hashes (r.address key).1)
        (r.distinctNodes n (r.address key).1).2 [] e hfst with h' | h'
    · cases h'
    · rcases h' with ⟨g, hg, hge⟩
      rcases distinctGo_mem r n (r.address key).1 hlen hq _ _ g hg with h'' | h''
      · cases h''
      · exact ⟨by rw [hge], g, h'', by rw [hge], by rw [hge], by rw [hge]⟩
  · by_cases hcond : (r.primaryNodes (getH r.hashes (r.address key).1)
        (r.distinctNodes n (r.address key).1).2).length = n
    · have h2 : (r.SuccessorOf n key).2 = [] := if_pos hcond
      rw [h2] at hsnd
      cases hsnd
    · have h2 : (r.SuccessorOf n key).2 =
          handoffGo r (getH r.hashes (r.address key).1)
            (r.distinctNodes n (r.address key).1).1
            ((n : Int) - ((r.primaryNodes (getH r.hashes (r.address key).1)
              (r.distinctNodes n (r.address key).1).2).length : Int))
            (r.primaryNodes (getH r.hashes (r.address key).1)
              (r.distinctNodes n (r.address key).1).2)
            (List.range' 1 (r.q - 1)) [] := if_neg hcond
      rw [h2] at hsnd
      rcases handoffGo_mem r _ _ _ _ hlen hq _ _ e hsnd with h'' | h''
      · cases h''
      · rcases h'' with ⟨g, hg, hge⟩
        exact ⟨by rw [hge], g, hg, by rw [hge], by rw [hge], by rw [hge]⟩

/-- The concrete ring of the C2/C6 scenarios: `m=8, q=4, t=1`, hasher = the
first byte; `[100]` active, `[200]` in handoff mode. -/
def ringC2 : RingS := (((newRing 8 4 1 byteHasher).Join [100]).Join [200]).Handoff [200]

/-- Witness for C6 at the concrete primary entry of `ringC2`. -/
theorem successorOf_coordinator_hash_witness :
    ({ hash := 63, addr := 100, rank := 0, node := [100] } : Hash).hash =
        (getH ringC2.hashes (ringC2.address [0]).1).hash ∧
    ∃ h ∈ ringC2.hashes,
      ({ hash := 63, addr := 100, rank := 0, node := [100] } : Hash).addr = h.addr ∧
      ({ hash := 63, addr := 100, rank := 0, node := [100] } : Hash).rank = h.rank ∧
      ({ hash := 63, addr := 100, rank := 0, node := [100] } : Hash).node = h.node :=
  successorOf_coordinator_hash ringC2 (by decide) (by decide) 2 [0]
    { hash := 63, addr := 100, rank := 0, node := [100] } (by decide)

/-! ## C2: eligibility for the handoff list -/

/-- Modelled from the claim's words (C2), for comparison with the code:
the same handoff collection loop, but admitting any current member —
active or not — i.e. a membership test where the code reads the active
flag. -/
def handoffSpecC2 (r : RingS) (coord : Hash) (last : Nat) (hn : Int) (primary : List Hash) :
    List Nat → List Hash → List Hash
  | [], acc => acc
  | i :: rest, acc =>
    let h := getH r.hashes ((last + i) % r.q)
    let acc' :=
      if hasNode r.nodes h.node ∧ ¬ containsNode acc h.node ∧
          ¬ containsNode primary h.node then
        acc ++ [{ hash := coord.hash, addr := h.addr, rank := h.rank, node := h.node }]
      else acc
    if (acc'.length : Int) = hn then acc' else handoffSpecC2 r coord last hn primary rest acc'

/-- `SuccessorOf` with the claim's handoff rule substituted (C2 comparison). -/
def RingS.SuccessorOfSpecC2 (r : RingS) (n : Nat) (key : Bytes) : List Hash × List Hash :=
  let shard := (r.address key).1
  let coord := getH r.hashes shard
  let lh := r.distinctNodes n shard
  let primary := r.primaryNodes coord lh.2
  let handoff :=
    if primary.length = n then []
    else
      handoffSpecC2 r coord lh.1 ((n : Int) - (primary.length : Int)) primary
        (List.range' 1 (r.q - 1)) []
  (primary, handoff)

/-- **C2 (counterexample).** On `ringC2` the inactive member `[200]` is a
current member, absent from both lists, and a handoff slot is needed
(`n = 2`, one primary found), yet the code returns an empty handoff list —
the code's condition `ring.nodes[hash.node]` reads the *active* flag, so
inactive members are not eligible, contradicting the claim's rule, which
would emit `[200]`. -/
theorem successorOf_handoff_counterexample :
    (ringC2.SuccessorOf 2 [0]).2 ≠ (ringC2.SuccessorOfSpecC2 2 [0]).2 ∧
    (ringC2.SuccessorOf 2 [0]).2 = [] ∧
    hasNode ringC2.nodes [200] = true ∧
    lookupNode ringC2.nodes [200] = false ∧
    containsNode (ringC2.SuccessorOf 2 [0]).1 [200] = false := by decide

theorem handoffGo_inv (r : RingS) (coord : Hash) (last : Nat) (hn : Int)
    (primary : List Hash) :
    ∀ (l : List Nat) (acc : List Hash),
      (∀ e ∈ acc, lookupNode r.nodes e.node = true ∧
        containsNode primary e.node = false) →
      (acc.map Hash.node).Nodup →
      (∀ e ∈ handoffGo r coord last hn primary l acc,
        lookupNode r.nodes e.node = true ∧ containsNode primary e.node = false) ∧
      ((handoffGo r coord last hn primary l acc).map Hash.node).Nodup := by
  intro l
  induction l with
  | nil => intro acc hP hN; exact ⟨hP, hN⟩
  | cons i rest ih =>
    intro acc hP hN
    rw [handoffGo]
    split_ifs with hc hb hb
    · refine ⟨?_, ?_⟩
      · intro e hee
        rcases List.mem_append.1 hee with h1 | h1
        · exact hP e h1
        · rcases List.mem_singleton.1 h1 with rfl
          exact ⟨hc.1, Bool.eq_false_iff.2 hc.2.2⟩
      · rw [List.map_append]
        refine List.Nodup.append hN (List.nodup_singleton _) ?_
        intro a ha hb'
        rcases List.mem_singleton.1 hb' with rfl
        exact hc.2.1 ((containsNode_iff _ _).2 ha)
    · apply ih
      · intro e hee
        rcases List.mem_append.1 hee with h1 | h1
        · exact hP e h1
        · rcases List.mem_singleton.1 h1 with rfl
          exact ⟨hc.1, Bool.eq_false_iff.2 hc.2.2⟩
      · rw [List.map_append]
        refine List.Nodup.append hN (List.nodup_singleton _) ?_
        intro a ha hb'
        rcases List.mem_singleton.1 hb' with rfl
        exact hc.2.1 ((containsNode_iff _ _).2 ha)
    · exact ⟨hP, hN⟩
    · exact ih acc hP hN

/-- **C2 (amended).** The handoff list is built from shard entries whose
node is (i) an *active* current member (the code's condition
`ring.nodes[hash.node]` is the active flag, so members in handoff mode are
not eligible), (ii) not already in the handoff list, and (iii) not in the
primary list. -/
theorem successorOf_handoff_active (r : RingS) (n : Nat) (key : Bytes) :
    (∀ e ∈ (r.SuccessorOf n key).2,
      lookupNode r.nodes e.node = true ∧
      containsNode (r.SuccessorOf n key).1 e.node = false) ∧
    (((r.SuccessorOf n key).2).map Hash.node).Nodup := by
  by_cases hcond : (r.primaryNodes (getH r.hashes (r.address key).1)
      (r.distinctNodes n (r.address key).1).2).length = n
  · have h2 : (r.SuccessorOf n key).2 = [] := if_pos hcond
    rw [h2]
    exact ⟨fun e he => absurd he (List.not_mem_nil e), List.nodup_nil⟩
  · have h2 : (r.SuccessorOf n key).2 =
        handoffGo r (getH r.hashes (r.address key).1)
          (r.distinctNodes n (r.address key).1).1
          ((n : Int) - ((r.primaryNodes (getH r.hashes (r.address key).1)
            (r.distinctNodes n (r.address key).1).2).length : Int))
          (r.primaryNodes (getH r.hashes (r.address key).1)
            (r.distinctNodes n (r.address key).1).2)
          (List.range' 1 (r.q - 1)) [] := if_neg hcond
    have h1 : (r.SuccessorOf n key).1 =
        r.primaryNodes (getH r.hashes (r.address key).1)
          (r.distinctNodes n (r.address key).1).2 := rfl
    rw [h1, h2]
    exact handoffGo_inv r _ _ _ _ _ []
      (fun e he => absurd he (List.not_mem_nil e)) List.nodup_nil

/-- The concrete witness ring for C2: `m=8, q=8, t=1`; `[40]` and `[70]`
active, `[200]` in handoff mode; `SuccessorOf 2` of a key in shard 0 finds
primary `[40]` and emits the active `[70]` as handoff. -/
def ringC2w : RingS :=
  ((((newRing 8 8 1 byteHasher).Join [40]).Join [70]).Join [200]).Handoff [200]

set_option maxRecDepth 4000 in
/-- Witness for C2 (amended) at the concrete handoff entry of `ringC2w`. -/
theorem successorOf_handoff_active_witness :
    (lookupNode ringC2w.nodes
        ({ hash := 31, addr := 70, rank := 0, node := [70] } : Hash).node = true ∧
      containsNode (ringC2w.SuccessorOf 2 [0]).1
        ({ hash := 31, addr := 70, rank := 0, node := [70] } : Hash).node = false) ∧
    (((ringC2w.SuccessorOf 2 [0]).2).map Hash.node).Nodup :=
  ⟨(successorOf_handoff_active ringC2w 2 [0]).1
      { hash := 31, addr := 70, rank := 0, node := [70] } (by decide),
    (successorOf_handoff_active ringC2w 2 [0]).2⟩

/-! ## C5: the two-step repair equals the declarative rule -/

/-- Scan downward from `j` to `0`, returning the first claimed index. -/
def scanDownO (hs : List Hash) : Nat → Option Nat
  | 0 => if (getH hs 0).rank ≠ -1 then some 0 else none
  | j + 1 => if (getH hs (j + 1)).rank ≠ -1 then some (j + 1) else scanDownO hs j

/-- Modelled from the spec (C5 declarative rule): the nearest
clockwise-preceding claimed shard of shard `i`, wrapping past index 0 —
the first claimed index among `i-1, i-2, …, 0`, and failing that among
`q-1, q-2, …`. -/
def prevClaimedIdx (hs : List Hash) (q i : Nat) : Option Nat :=
  match (if i = 0 then none else scanDownO hs (i - 1)) with
  | some c => some c
  | none => scanDownO hs (q - 1)

/-- Modelled from the spec: the declarative value of shard `i` after
repair — a shard with `rank = -1` receives the node of its nearest
clockwise-preceding claimed shard, all other fields untouched. -/
def specEntry (q : Nat) (hs : List Hash) (i : Nat) : Hash :=
  if (getH hs i).rank = -1 then
    match prevClaimedIdx hs q i with
    | some j => { getH hs i with node := (getH hs j).node }
    | none => getH hs i
  else getH hs i

/-- Modelled from the spec: declarative repair of the whole shard vector. -/
def repairSpec (q : Nat) (hs : List Hash) : List Hash :=
  (List.range hs.length).map (specEntry q hs)

theorem getH_repairSpec (q : Nat) (hs : List Hash) (i : Nat) (hi : i < hs.length) :
    getH (repairSpec q hs) i = specEntry q hs i := by
  unfold repairSpec getH
  rw [List.getD_eq_getElem?_getD, List.getElem?_map, List.getElem?_range hi]
  rfl

theorem length_repairSpec (q : Nat) (hs : List Hash) :
    (repairSpec q hs).length = hs.length := by
  simp [repairSpec]

theorem scanDownO_claimed {hs : List Hash} {j : Nat} (h : (getH hs j).rank ≠ -1) :
    scanDownO hs j = some j := by
  cases j with
  | zero => rw [scanDownO, if_pos h]
  | succ j => rw [scanDownO, if_pos h]

theorem scanDownO_unclaimed_succ {hs : List Hash} {j : Nat}
    (h : (getH hs (j + 1)).rank = -1) :
    scanDownO hs (j + 1) = scanDownO hs j := by
  rw [scanDownO, if_neg (by simpa using h)]

theorem scanDown1_eq_scanDownO {hs : List Hash} (h0 : (getH hs 0).rank = -1) :
    ∀ j, scanDown1 hs j = scanDownO hs j := by
  intro j
  induction j with
  | zero => rw [scanDown1, scanDownO, if_neg (by simpa using h0)]
  | succ j ih =>
    rw [scanDown1, scanDownO]
    by_cases hc : (getH hs (j + 1)).rank ≠ -1
    · rw [if_pos hc, if_pos hc]
    · rw [if_neg hc, if_neg hc, ih]

theorem scanDownO_isSome {hs : List Hash} :
    ∀ j, (∃ c, c ≤ j ∧ (getH hs c).rank ≠ -1) → (scanDownO hs j).isSome := by
  intro j
  induction j with
  | zero =>
    rintro ⟨c, hc, hcl⟩
    interval_cases c
    rw [scanDownO, if_pos hcl]
    rfl
  | succ j ih =>
    rintro ⟨c, hc, hcl⟩
    by_cases hj : (getH hs (j + 1)).rank ≠ -1
    · rw [scanDownO, if_pos hj]; rfl
    · rw [scanDownO, if_neg hj]
      apply ih
      refine ⟨c, ?_, hcl⟩
      rcases Nat.lt_or_ge c (j + 1) with h' | h'
      · omega
      · exfalso
        have : c = j + 1 := by omega
        rw [this] at hcl
        exact hj hcl

theorem prevClaimedIdx_isSome {hs : List Hash} {q i : Nat} (hq : 1 ≤ q)
    (hcl : ∃ c, c < q ∧ (getH hs c).rank ≠ -1) :
    (prevClaimedIdx hs q i).isSome := by
  unfold prevClaimedIdx
  rcases hsc : (if i = 0 then none else scanDownO hs (i - 1)) with _ | c
  · show (scanDownO hs (q - 1)).isSome
    rcases hcl with ⟨c, hc, hccl⟩
    exact scanDownO_isSome (q - 1) ⟨c, by omega, hccl⟩
  · rfl

theorem prevClaimedIdx_claimed_pred {hs : List Hash} {q i : Nat} (h1 : 1 ≤ i)
    (h : (getH hs (i - 1)).rank ≠ -1) :
    prevClaimedIdx hs q i = some (i - 1) := by
  rcases i with _ | i'
  · omega
  · unfold prevClaimedIdx
    rw [if_neg (Nat.succ_ne_zero i')]
    have : scanDownO hs (i' + 1 - 1) = some (i' + 1 - 1) := scanDownO_claimed h
    rw [this]

theorem prevClaimedIdx_unclaimed_pred {hs : List Hash} {q i : Nat} (h1 : 1 ≤ i)
    (h : (getH hs (i - 1)).rank = -1) :
    prevClaimedIdx hs q i = prevClaimedIdx hs q (i - 1) := by
  rcases i with _ | i'
  · omega
  · show prevClaimedIdx hs q (i' + 1) = prevClaimedIdx hs q i'
    unfold prevClaimedIdx
    rw [if_neg (Nat.succ_ne_zero i')]
    rcases i' with _ | k
    · rw [show ((0 : Nat) + 1 - 1) = 0 from rfl]
      rw [show (scanDownO hs 0) = none from by
        rw [scanDownO, if_neg (by simpa using h)]]
      rw [if_pos rfl]
    · rw [if_neg (Nat.succ_ne_zero k)]
      rw [show (k + 1 + 1 - 1) = k + 1 from rfl]
      rw [scanDownO_unclaimed_succ (by simpa using h)]
      rfl

theorem specEntry_claimed {q : Nat} {hs : List Hash} {i : Nat}
    (h : (getH hs i).rank ≠ -1) : specEntry q hs i = getH hs i := by
  rw [specEntry, if_neg h]

theorem specEntry_chain {q : Nat} {hs : List Hash} (hq : 1 ≤ q)
    (hcl : ∃ c, c < q ∧ (getH hs c).rank ≠ -1) {i : Nat} (h1 : 1 ≤ i)
    (hui : (getH hs i).rank = -1) :
    specEntry q hs i = { getH hs i with node := (specEntry q hs (i - 1)).node } := by
  by_cases hprev : (getH hs (i - 1)).rank = -1
  · rw [specEntry, if_pos hui, prevClaimedIdx_unclaimed_pred h1 hprev]
    have hsome := prevClaimedIdx_isSome (i := i - 1) hq hcl
    rcases hj : prevClaimedIdx hs q (i - 1) with _ | j
    · rw [hj] at hsome; cases hsome
    · have hspec : specEntry q hs (i - 1) =
          { getH hs (i - 1) with node := (getH hs j).node } := by
        rw [specEntry, if_pos hprev, hj]
      rw [hspec]
  · rw [specEntry, if_pos hui, prevClaimedIdx_claimed_pred h1 hprev,
      specEntry_claimed hprev]

/-! Characterization of `repair1`. -/

theorem length_repair1 (q : Nat) (hs : List Hash) :
    (repair1 q hs).length = hs.length := by
  by_cases h1 : (getH hs 0).rank = -1
  · rw [repair1, if_pos h1]
    rcases hsc : scanDown1 hs (q - 1) with _ | i
    · rfl
    · exact length_updateNode ..
  · rw [repair1, if_neg h1]

theorem getH_repair1_pos (q : Nat) (hs : List Hash) (j : Nat) (hj : 1 ≤ j) :
    getH (repair1 q hs) j = getH hs j := by
  by_cases h1 : (getH hs 0).rank = -1
  · rw [repair1, if_pos h1]
    rcases hsc : scanDown1 hs (q - 1) with _ | i
    · rfl
    · exact getH_set_ne (by omega) _
  · rw [repair1, if_neg h1]

theorem getH_repair1_zero (q : Nat) (hs : List Hash) (hlen : hs.length = q)
    (hq : 1 ≤ q) (hcl : ∃ c, c < q ∧ (getH hs c).rank ≠ -1) :
    getH (repair1 q hs) 0 = specEntry q hs 0 := by
  by_cases h1 : (getH hs 0).rank = -1
  · have hprev0 : prevClaimedIdx hs q 0 = scanDownO hs (q - 1) := by
      unfold prevClaimedIdx
      rw [if_pos rfl]
    have hsome := prevClaimedIdx_isSome (i := 0) hq hcl
    rcases hj : prevClaimedIdx hs q 0 with _ | c
    · rw [hj] at hsome; cases hsome
    · rw [repair1, if_pos h1, scanDown1_eq_scanDownO h1, ← hprev0, hj]
      rw [specEntry, if_pos h1, hj]
      show getH (updateNode hs 0 (getH hs c)) 0 = _
      unfold updateNode
      exact getH_set_self (by omega) _
  · rw [repair1, if_neg h1, specEntry, if_neg h1]

/-! Characterization of `repair2` by induction along its walk. -/

/-- The prefix of `repair2`'s walk: shards `1 .. p` processed. -/
def repair2Go (hs1 : List Hash) (p : Nat) : List Hash :=
  (List.range' 1 p).foldl
    (fun h i => if (getH h i).rank = -1 then updateNode h i (getH h (i - 1)) else h) hs1

theorem repair2_eq_repair2Go (q : Nat) (hs : List Hash) :
    repair2 q hs = repair2Go hs (q - 1) := rfl

theorem repair2Go_succ (hs1 : List Hash) (p : Nat) :
    repair2Go hs1 (p + 1) =
      if (getH (repair2Go hs1 p) (p + 1)).rank = -1 then
        updateNode (repair2Go hs1 p) (p + 1) (getH (repair2Go hs1 p) p)
      else repair2Go hs1 p := by
  unfold repair2Go
  rw [show (List.range' 1 (p + 1)) = List.range' 1 p ++ [1 + 1 * p] from
    List.range'_concat 1 p, List.foldl_append]
  simp only [List.foldl_cons, List.foldl_nil, Nat.one_mul, Nat.add_comm 1 p,
    Nat.add_sub_cancel]

theorem repair2Go_inv (q : Nat) (hs : List Hash) (hlen : hs.length = q)
    (hq : 1 ≤ q) (hcl : ∃ c, c < q ∧ (getH hs c).rank ≠ -1) :
    ∀ p, p < q →
      (repair2Go (repair1 q hs) p).length = q ∧
      ∀ j, j < q →
        (j ≤ p → getH (repair2Go (repair1 q hs) p) j = specEntry q hs j) ∧
        (p < j → getH (repair2Go (repair1 q hs) p) j = getH hs j) := by
  intro p
  induction p with
  | zero =>
    intro _
    refine ⟨by rw [show repair2Go (repair1 q hs) 0 = repair1 q hs from rfl,
      length_repair1, hlen], ?_⟩
    intro j hj
    constructor
    · intro hj0
      have : j = 0 := by omega
      subst this
      exact getH_repair1_zero q hs hlen hq hcl
    · intro hj0
      exact getH_repair1_pos q hs j (by omega)
  | succ p ih =>
    intro hp
    have hih := ih (by omega)
    have hlen' : (repair2Go (repair1 q hs) p).length = q := hih.1
    have hcur : getH (repair2Go (repair1 q hs) p) (p + 1) = getH hs (p + 1) :=
      (hih.2 (p + 1) hp).2 (by omega)
    rw [repair2Go_succ]
    by_cases hu : (getH hs (p + 1)).rank = -1
    · rw [if_pos (by rw [hcur]; exact hu)]
      refine ⟨by rw [length_updateNode, hlen'], ?_⟩
      intro j hj
      constructor
      · intro hjp
        by_cases hje : j = p + 1
        · subst hje
          have hself : getH (updateNode (repair2Go (repair1 q hs) p) (p + 1)
              (getH (repair2Go (repair1 q hs) p) p)) (p + 1) =
              { getH (repair2Go (repair1 q hs) p) (p + 1) with
                node := (getH (repair2Go (repair1 q hs) p) p).node } := by
            unfold updateNode
            exact getH_set_self (by omega) _
          rw [hself, hcur, (hih.2 p (by omega)).1 (by omega)]
          exact (specEntry_chain hq hcl (by omega) hu).symm
        · have hne : getH (updateNode (repair2Go (repair1 q hs) p) (p + 1)
              (getH (repair2Go (repair1 q hs) p) p)) j =
              getH (repair2Go (repair1 q hs) p) j := by
            unfold updateNode
            exact getH_set_ne (by omega) _
          rw [hne]
          exact (hih.2 j hj).1 (by omega)
      · intro hjp
        have hne : getH (updateNode (repair2Go (repair1 q hs) p) (p + 1)
            (getH (repair2Go (repair1 q hs) p) p)) j =
            getH (repair2Go (repair1 q hs) p) j := by
          unfold updateNode
          exact getH_set_ne (by omega) _
        rw [hne]
        exact (hih.2 j hj).2 (by omega)
    · rw [if_neg (by rw [hcur]; exact hu)]
      refine ⟨hlen', ?_⟩
      intro j hj
      constructor
      · intro hjp
        by_cases hje : j = p + 1
        · subst hje
          rw [hcur, specEntry_claimed hu]
        · exact (hih.2 j hj).1 (by omega)
      · intro hjp
        exact (hih.2 j hj).2 (by omega)

/-- The two-step `repair` equals the declarative specification, provided at
least one shard is claimed. -/
theorem repairR_eq_repairSpec (q : Nat) (hs : List Hash) (hlen : hs.length = q)
    (hq : 1 ≤ q) (hcl : ∃ c, c < q ∧ (getH hs c).rank ≠ -1) :
    repairR q hs = repairSpec q hs := by
  have hinv := repair2Go_inv q hs hlen hq hcl (q - 1) (by omega)
  apply hashes_ext
  · show (repairR q hs).length = (repairSpec q hs).length
    rw [length_repairSpec, hlen]
    exact hinv.1
  · intro i hi
    have hi' : i < q := by
      have := hinv.1
      unfold repairR at hi
      rw [repair2_eq_repair2Go] at hi
      omega
    show getH (repairR q hs) i = getH (repairSpec q hs) i
    rw [getH_repairSpec q hs i (by omega)]
    unfold repairR
    rw [repair2_eq_repair2Go]
    exact (hinv.2 i hi').1 (by omega)

/-- **C5.** Provided at least one shard is token-claimed, the two-step
repair is equivalent to the declarative rule — every shard with
`rank = -1` receives the node of its nearest clockwise-preceding claimed
shard (wrapping past index 0) — and repair changes only the `node` field:
`hash`, `addr` and `rank` of every shard are unchanged (so `rank = -1`
persists as a marker), and claimed shards are wholly untouched. -/
theorem repair_equiv_declarative (q : Nat) (hs : List Hash) (hlen : hs.length = q)
    (hq : 1 ≤ q) (hcl : ∃ c, c < q ∧ (getH hs c).rank ≠ -1) :
    repairR q hs = repairSpec q hs ∧
    ∀ i, i < q →
      (getH (repairR q hs) i).hash = (getH hs i).hash ∧
      (getH (repairR q hs) i).addr = (getH hs i).addr ∧
      (getH (repairR q hs) i).rank = (getH hs i).rank ∧
      ((getH hs i).rank ≠ -1 → getH (repairR q hs) i = getH hs i) := by
  have hmain := repairR_eq_repairSpec q hs hlen hq hcl
  refine ⟨hmain, ?_⟩
  intro i hi
  rw [hmain, getH_repairSpec q hs i (by omega)]
  by_cases hu : (getH hs i).rank = -1
  · rw [specEntry, if_pos hu]
    rcases hj : prevClaimedIdx hs q i with _ | j
    · exact ⟨rfl, rfl, rfl, fun hcontra => absurd hu hcontra⟩
    · exact ⟨rfl, rfl, rfl, fun hcontra => absurd hu hcontra⟩
  · rw [specEntry_claimed hu]
    exact ⟨rfl, rfl, rfl, fun _ => rfl⟩

/-- The concrete shard vector of the C5 witness: shards 0 and 3 claimed,
shards 1 and 2 unclaimed. -/
def hsW : List Hash :=
  [{ hash := 63, addr := 5, rank := 0, node := [1] },
   { hash := 127, addr := 0, rank := -1, node := [] },
   { hash := 191, addr := 0, rank := -1, node := [] },
   { hash := 255, addr := 9, rank := 2, node := [2] }]

/-- Witness for C5 on the concrete vector `hsW`. -/
theorem repair_equiv_declarative_witness :
    repairR 4 hsW = repairSpec 4 hsW ∧
    (getH (repairR 4 hsW) 1).rank = (getH hsW 1).rank :=
  ⟨(repair_equiv_declarative 4 hsW (by decide) (by decide)
      ⟨0, by decide, by decide⟩).1,
    ((repair_equiv_declarative 4 hsW (by decide) (by decide)
      ⟨0, by decide, by decide⟩).2 1 (by decide)).2.2.1⟩

/-! ## C4: after Join/Leave/Handoff, every shard is owned by a member -/

theorem getH_out {hs : List Hash} {i : Nat} (h : hs.length ≤ i) : getH hs i = h0 := by
  unfold getH
  rw [List.getD_eq_getElem?_getD, List.getElem?_eq_none h]
  rfl

theorem getH_update_cases (hs : List Hash) (s a : Nat) (k : Int) (n : Bytes) (i : Nat) :
    getH (update hs s a k n) i = getH hs i ∨
    ((getH (update hs s a k n) i).node = n ∧ (getH (update hs s a k n) i).rank = k) := by
  by_cases hi : i = s
  · subst hi
    by_cases hlt : i < hs.length
    · right
      rw [update, getH_set_self hlt]
      exact ⟨rfl, rfl⟩
    · left
      rw [getH_out (le_trans (le_of_eq (length_update hs i a k n)) (Nat.le_of_not_lt hlt)),
        getH_out (Nat.le_of_not_lt hlt)]
  · left
    exact getH_set_ne (Ne.symm hi) _

theorem length_tokenStep (r : RingS) (x : Bytes) (hs : List Hash) (k : Nat) :
    (r.tokenStep x hs k).length = hs.length := by
  simp only [RingS.tokenStep]
  split_ifs <;> simp [update]

theorem getH_tokenStep_cases (r : RingS) (x : Bytes) (hs : List Hash) (k i : Nat) :
    getH (r.tokenStep x hs k) i = getH hs i ∨
    ((getH (r.tokenStep x hs k) i).node = x ∧
      (getH (r.tokenStep x hs k) i).rank = (k : Int)) := by
  simp only [RingS.tokenStep]
  split_ifs
  · exact getH_update_cases ..
  · exact getH_update_cases ..
  · exact getH_update_cases ..
  · exact getH_update_cases ..
  · left; rfl

theorem length_applyTokens (r : RingS) (x : Bytes) (hs : List Hash) :
    (r.applyTokens x hs).length = hs.length := by
  unfold RingS.applyTokens
  generalize List.range r.t = l
  induction l generalizing hs with
  | nil => rfl
  | cons k rest ih =>
    rw [List.foldl_cons, ih, length_tokenStep]

theorem getH_applyTokens_cases (r : RingS) (x : Bytes) (hs : List Hash) (i : Nat) :
    getH (r.applyTokens x hs) i = getH hs i ∨
    ((getH (r.applyTokens x hs) i).node = x ∧
      (getH (r.applyTokens x hs) i).rank ≠ -1) := by
  unfold RingS.applyTokens
  generalize List.range r.t = l
  induction l generalizing hs with
  | nil => left; rfl
  | cons k rest ih =>
    rw [List.foldl_cons]
    rcases ih (r.tokenStep x hs k) with h' | h'
    · rcases getH_tokenStep_cases r x hs k i with h'' | h''
      · left; rw [h', h'']
      · right
        rw [h']
        exact ⟨h''.1, by rw [h''.2]; omega⟩
    · right; exact h'

theorem tokenStep_claimed_mono (r : RingS) (x : Bytes) (hs : List Hash) (k i : Nat)
    (h : (getH hs i).rank ≠ -1) : (getH (r.tokenStep x hs k) i).rank ≠ -1 := by
  rcases getH_tokenStep_cases r x hs k i with h' | h'
  · rw [h']; exact h
  · rw [h'.2]; omega

theorem foldl_tokenStep_claimed_mono (r : RingS) (x : Bytes) (l : List Nat) :
    ∀ (hs : List Hash) (i : Nat), (getH hs i).rank ≠ -1 →
      (getH (l.foldl (r.tokenStep x) hs) i).rank ≠ -1 := by
  induction l with
  | nil => intro hs i h; exact h
  | cons k rest ih =>
    intro hs i h
    rw [List.foldl_cons]
    exact ih _ i (tokenStep_claimed_mono r x hs k i h)

theorem applyTokens_claimed (r : RingS) (x : Bytes) (hs : List Hash)
    (hq : 1 ≤ r.q) (ht : 1 ≤ r.t) (hlen : hs.length = r.q)
    (hW5 : ∀ i, i < r.q → (getH hs i).rank = -1 → (getH hs i).addr = 0) :
    ∃ c, c < r.q ∧ (getH (r.applyTokens x hs) c).rank ≠ -1 := by
  have hs0lt : (r.addressHash (r.digest x 0)).1 < r.q := Nat.mod_lt _ hq
  refine ⟨(r.addressHash (r.digest x 0)).1, hs0lt, ?_⟩
  unfold RingS.applyTokens
  obtain ⟨t2, ht2⟩ : ∃ t2, r.t = t2 + 1 := ⟨r.t - 1, by omega⟩
  rw [ht2, List.range_eq_range', List.range'_succ, List.foldl_cons]
  apply foldl_tokenStep_claimed_mono
  simp only [RingS.tokenStep]
  split_ifs with h1 h2 h3 h4
  · rw [update, getH_set_self (by omega)]
    simp
  · rw [update, getH_set_self (by omega)]
    simp
  · rw [update, getH_set_self (by omega)]
    simp
  · rw [update, getH_set_self (by omega)]
    simp
  · intro hcl
    exact h1 (hW5 _ hs0lt hcl)

theorem tokenStep_W5 (r : RingS) (x : Bytes) (hs : List Hash) (k : Nat)
    (h : ∀ i, i < r.q → (getH hs i).rank = -1 → (getH hs i).addr = 0) :
    ∀ i, i < r.q → (getH (r.tokenStep x hs k) i).rank = -1 →
      (getH (r.tokenStep x hs k) i).addr = 0 := by
  intro i hi hrk
  rcases getH_tokenStep_cases r x hs k i with h' | h'
  · rw [h'] at hrk ⊢
    exact h i hi hrk
  · rw [h'.2] at hrk
    omega

theorem applyTokens_W5 (r : RingS) (x : Bytes) (hs : List Hash)
    (h : ∀ i, i < r.q → (getH hs i).rank = -1 → (getH hs i).addr = 0) :
    ∀ i, i < r.q → (getH (r.applyTokens x hs) i).rank = -1 →
      (getH (r.applyTokens x hs) i).addr = 0 := by
  intro i hi hrk
  rcases getH_applyTokens_cases r x hs i with h' | h'
  · rw [h'] at hrk ⊢
    exact h i hi hrk
  · exact absurd hrk h'.2

theorem getH_updateNode_fields (hs : List Hash) (s : Nat) (src : Hash) (i : Nat) :
    (getH (updateNode hs s src) i).addr = (getH hs i).addr ∧
    (getH (updateNode hs s src) i).rank = (getH hs i).rank ∧
    (getH (updateNode hs s src) i).hash = (getH hs i).hash := by
  by_cases hi : i = s
  · subst hi
    by_cases hlt : i < hs.length
    · rw [updateNode, getH_set_self hlt]
      exact ⟨rfl, rfl, rfl⟩
    · rw [getH_out (le_trans (le_of_eq (length_updateNode hs i src)) (Nat.le_of_not_lt hlt)),
        getH_out (Nat.le_of_not_lt hlt)]
      exact ⟨rfl, rfl, rfl⟩
  · rw [updateNode, getH_set_ne (Ne.symm hi)]
    exact ⟨rfl, rfl, rfl⟩

theorem getH_repair1_fields (q : Nat) (hs : List Hash) (i : Nat) :
    (getH (repair1 q hs) i).addr = (getH hs i).addr ∧
    (getH (repair1 q hs) i).rank = (getH hs i).rank ∧
    (getH (repair1 q hs) i).hash = (getH hs i).hash := by
  by_cases h1 : (getH hs 0).rank = -1
  · rw [repair1, if_pos h1]
    rcases hsc : scanDown1 hs (q - 1) with _ | c
    · exact ⟨rfl, rfl, rfl⟩
    · exact getH_updateNode_fields ..
  · rw [repair1, if_neg h1]
    exact ⟨rfl, rfl, rfl⟩

theorem getH_repair2_fields (q : Nat) (hs : List Hash) (i : Nat) :
    (getH (repair2 q hs) i).addr = (getH hs i).addr ∧
    (getH (repair2 q hs) i).rank = (getH hs i).rank ∧
    (getH (repair2 q hs) i).hash = (getH hs i).hash := by
  unfold repair2
  generalize List.range' 1 (q - 1) = l
  induction l generalizing hs with
  | nil => exact ⟨rfl, rfl, rfl⟩
  | cons k rest ih =>
    rw [List.foldl_cons]
    by_cases hc : (getH hs k).rank = -1
    · rw [if_pos hc]
      rcases ih (updateNode hs k (getH hs (k - 1))) with ⟨ha, hr, hh⟩
      rcases getH_updateNode_fields hs k (getH hs (k - 1)) i with ⟨ha', hr', hh'⟩
      exact ⟨ha.trans ha', hr.trans hr', hh.trans hh'⟩
    · rw [if_neg hc]
      exact ih hs

theorem getH_repairR_fields (q : Nat) (hs : List Hash) (i : Nat) :
    (getH (repairR q hs) i).addr = (getH hs i).addr ∧
    (getH (repairR q hs) i).rank = (getH hs i).rank ∧
    (getH (repairR q hs) i).hash = (getH hs i).hash := by
  rcases getH_repair2_fields q (repair1 q hs) i with ⟨ha, hr, hh⟩
  rcases getH_repair1_fields q hs i with ⟨ha', hr', hh'⟩
  exact ⟨ha.trans ha', hr.trans hr', hh.trans hh'⟩

theorem length_repair2 (q : Nat) (hs : List Hash) :
    (repair2 q hs).length = hs.length := by
  unfold repair2
  generalize List.range' 1 (q - 1) = l
  induction l generalizing hs with
  | nil => rfl
  | cons k rest ih =>
    rw [List.foldl_cons]
    by_cases hc : (getH hs k).rank = -1
    · rw [if_pos hc, ih, length_updateNode]
    · rw [if_neg hc, ih]

theorem length_repairR (q : Nat) (hs : List Hash) :
    (repairR q hs).length = hs.length := by
  rw [repairR, length_repair2, length_repair1]

theorem hasNode_iff_mem (l : List (Bytes × Bool)) (k : Bytes) :
    hasNode l k = true ↔ k ∈ l.map Prod.fst := by
  unfold hasNode
  rw [List.find?_isSome]
  constructor
  · rintro ⟨p, hp, hbeq⟩
    exact List.mem_map.2 ⟨p, hp, beq_iff_eq.1 hbeq⟩
  · intro hm
    rcases List.mem_map.1 hm with ⟨p, hp, hpe⟩
    exact ⟨p, hp, beq_iff_eq.2 hpe⟩

theorem keys_setNode (l : List (Bytes × Bool)) (k : Bytes) (v : Bool) :
    (setNode l k v).map Prod.fst =
      if hasNode l k then l.map Prod.fst else l.map Prod.fst ++ [k] := by
  unfold setNode
  split_ifs with hc
  · rw [List.map_map]
    apply List.map_congr_left
    intro p _
    show (if p.1 == k then (p.1, v) else p).1 = p.1
    by_cases hp : p.1 == k
    · rw [if_pos hp]
    · rw [if_neg hp]
  · rw [List.map_append]
    rfl

theorem hasNode_setNode_self (l : List (Bytes × Bool)) (k : Bytes) (v : Bool) :
    hasNode (setNode l k v) k = true := by
  rw [hasNode_iff_mem, keys_setNode]
  split_ifs with hc
  · exact (hasNode_iff_mem l k).1 hc
  · exact List.mem_append.2 (Or.inr (List.mem_singleton.2 rfl))

theorem hasNode_setNode_mono (l : List (Bytes × Bool)) (k : Bytes) (v : Bool)
    (k' : Bytes) (h : hasNode l k' = true) : hasNode (setNode l k v) k' = true := by
  rw [hasNode_iff_mem, keys_setNode]
  split_ifs with hc
  · exact (hasNode_iff_mem l k').1 h
  · exact List.mem_append.2 (Or.inl ((hasNode_iff_mem l k').1 h))

theorem setNode_fst_ne (l : List (Bytes × Bool)) (k : Bytes) (v : Bool)
    (hl : ∀ p ∈ l, p.1 ≠ ([] : Bytes)) (hk : k ≠ []) :
    ∀ p ∈ setNode l k v, p.1 ≠ ([] : Bytes) := by
  intro p hp
  unfold setNode at hp
  split_ifs at hp with hc
  · rcases List.mem_map.1 hp with ⟨p', hp', hpe⟩
    by_cases hb : p'.1 == k
    · rw [← hpe, if_pos hb]
      exact hl p' hp'
    · rw [← hpe, if_neg hb]
      exact hl p' hp'
  · rcases List.mem_append.1 hp with h' | h'
    · exact hl p h'
    · rcases List.mem_singleton.1 h' with rfl
      exact hk

theorem Join_q (r : RingS) (x : Bytes) : (r.Join x).q = r.q := by
  unfold RingS.Join; split_ifs <;> rfl

theorem Join_t (r : RingS) (x : Bytes) : (r.Join x).t = r.t := by
  unfold RingS.Join; split_ifs <;> rfl

theorem Join_nodes (r : RingS) (x : Bytes) : (r.Join x).nodes = setNode r.nodes x true := by
  unfold RingS.Join; split_ifs <;> rfl

theorem Join_hashes_member (r : RingS) (x : Bytes) (h : hasNode r.nodes x = true) :
    (r.Join x).hashes = r.hashes := by
  unfold RingS.Join; rw [if_pos h]

theorem Join_hashes_fresh (r : RingS) (x : Bytes) (h : ¬ hasNode r.nodes x = true) :
    (r.Join x).hashes = repairR r.q (r.applyTokens x r.hashes) := by
  unfold RingS.Join; rw [if_neg h]

theorem getH_emptyR (r : RingS) (i : Nat) (hi : i < r.q) :
    getH r.emptyR.hashes i =
      { hash := r.addressShard (i + 1), addr := 0, rank := -1, node := [] } := by
  show getH ((r.addresses).map
    (fun a => { hash := a, addr := 0, rank := -1, node := [] })) i = _
  unfold RingS.addresses getH
  rw [List.getD_eq_getElem?_getD, List.getElem?_map, List.getElem?_map,
    List.getElem?_range hi]
  rfl

theorem length_emptyR (r : RingS) : r.emptyR.hashes.length = r.q := by
  show ((r.addresses).map _).length = r.q
  rw [List.length_map]
  unfold RingS.addresses
  rw [List.length_map, List.length_range]

theorem scanDownO_claimed_res {hs : List Hash} :
    ∀ {j c : Nat}, scanDownO hs j = some c → (getH hs c).rank ≠ -1 := by
  intro j
  induction j with
  | zero =>
    intro c h
    rw [scanDownO] at h
    split_ifs at h with hcl
    · rcases Option.some_inj.1 h with rfl
      exact hcl
  | succ j ih =>
    intro c h
    rw [scanDownO] at h
    split_ifs at h with hcl
    · rcases Option.some_inj.1 h with rfl
      exact hcl
    · exact ih h

theorem scanDownO_le {hs : List Hash} :
    ∀ {j c : Nat}, scanDownO hs j = some c → c ≤ j := by
  intro j
  induction j with
  | zero =>
    intro c h
    rw [scanDownO] at h
    split_ifs at h with hcl
    · rcases Option.some_inj.1 h with rfl
      exact Nat.le_refl 0
  | succ j ih =>
    intro c h
    rw [scanDownO] at h
    split_ifs at h with hcl
    · rcases Option.some_inj.1 h with rfl
      exact Nat.le_refl _
    · exact Nat.le_succ_of_le (ih h)

theorem prevClaimedIdx_claimed_res {hs : List Hash} {q i j : Nat}
    (h : prevClaimedIdx hs q i = some j) : (getH hs j).rank ≠ -1 := by
  unfold prevClaimedIdx at h
  by_cases h0 : i = 0
  · rw [if_pos h0] at h
    exact scanDownO_claimed_res h
  · rw [if_neg h0] at h
    rcases hsc : scanDownO hs (i - 1) with _ | c
    · rw [hsc] at h
      exact scanDownO_claimed_res h
    · rw [hsc] at h
      rw [← Option.some_inj.1 h]
      exact scanDownO_claimed_res hsc

theorem prevClaimedIdx_lt {hs : List Hash} {q i j : Nat} (hq : 1 ≤ q) (hi : i < q)
    (h : prevClaimedIdx hs q i = some j) : j < q := by
  unfold prevClaimedIdx at h
  by_cases h0 : i = 0
  · rw [if_pos h0] at h
    have := scanDownO_le h
    omega
  · rw [if_neg h0] at h
    rcases hsc : scanDownO hs (i - 1) with _ | c
    · rw [hsc] at h
      have := scanDownO_le h
      omega
    · rw [hsc] at h
      have hcj := Option.some_inj.1 h
      have := scanDownO_le hsc
      omega

/-- A fresh `Join`'s allocation plus repair leaves every shard owned by a
previous claimed owner or by the joining node itself. -/
theorem join_fresh_owned (r : RingS) (x : Bytes) (hx : x ≠ [])
    (hlen : r.hashes.length = r.q) (hq : 1 ≤ r.q) (ht : 1 ≤ r.t)
    (hW5 : ∀ i, i < r.q → (getH r.hashes i).rank = -1 → (getH r.hashes i).addr = 0)
    (hcl : ∀ i, i < r.q → (getH r.hashes i).rank ≠ -1 →
      (getH r.hashes i).node ≠ [] ∧ hasNode r.nodes (getH r.hashes i).node = true) :
    ∀ i, i < r.q →
      (getH (repairR r.q (r.applyTokens x r.hashes)) i).node ≠ [] ∧
      (hasNode r.nodes (getH (repairR r.q (r.applyTokens x r.hashes)) i).node = true ∨
        (getH (repairR r.q (r.applyTokens x r.hashes)) i).node = x) := by
  have hlen' : (r.applyTokens x r.hashes).length = r.q := by
    rw [length_applyTokens, hlen]
  have hexcl := applyTokens_claimed r x r.hashes hq ht hlen hW5
  have hclaimprop : ∀ j, j < r.q → (getH (r.applyTokens x r.hashes) j).rank ≠ -1 →
      (getH (r.applyTokens x r.hashes) j).node ≠ [] ∧
      (hasNode r.nodes (getH (r.applyTokens x r.hashes) j).node = true ∨
        (getH (r.applyTokens x r.hashes) j).node = x) := by
    intro j hj hclj
    rcases getH_applyTokens_cases r x r.hashes j with h' | h'
    · rw [h'] at hclj ⊢
      rcases hcl j hj hclj with ⟨hne, hmem⟩
      exact ⟨hne, Or.inl hmem⟩
    · exact ⟨by rw [h'.1]; exact hx, Or.inr h'.1⟩
  rw [repairR_eq_repairSpec r.q _ hlen' hq hexcl]
  intro i hi
  rw [getH_repairSpec _ _ i (by omega)]
  by_cases hu : (getH (r.applyTokens x r.hashes) i).rank = -1
  · rw [specEntry, if_pos hu]
    have hsome := prevClaimedIdx_isSome (i := i) hq hexcl
    rcases hj : prevClaimedIdx (r.applyTokens x r.hashes) r.q i with _ | j
    · rw [hj] at hsome; cases hsome
    · have hjlt : j < r.q := prevClaimedIdx_lt hq hi hj
      have hjcl : (getH (r.applyTokens x r.hashes) j).rank ≠ -1 :=
        prevClaimedIdx_claimed_res hj
      exact hclaimprop j hjlt hjcl
  · rw [specEntry, if_neg hu]
    exact hclaimprop i hi hu

/-- Every shard entry is pristine (empty node, unclaimed, zero address). -/
def pristineHashes (r : RingS) : Prop :=
  ∀ i, i < r.q → (getH r.hashes i).node = [] ∧ (getH r.hashes i).rank = -1 ∧
    (getH r.hashes i).addr = 0

/-- Every shard entry's node is a non-empty current member. -/
def ownedHashes (r : RingS) : Prop :=
  ∀ i, i < r.q → (getH r.hashes i).node ≠ [] ∧
    hasNode r.nodes (getH r.hashes i).node = true

/-- Structural well-formedness maintained by every operation: the shard
vector has length `q`, the configuration is valid, member identifiers are
non-empty, and unclaimed shards have address 0. -/
def InvC (r : RingS) : Prop :=
  r.hashes.length = r.q ∧ 1 ≤ r.q ∧ 1 ≤ r.t ∧
  (∀ p ∈ r.nodes, p.1 ≠ ([] : Bytes)) ∧
  (∀ i, i < r.q → (getH r.hashes i).rank = -1 → (getH r.hashes i).addr = 0)

theorem Join_InvC (r : RingS) (x : Bytes) (hx : x ≠ []) (h : InvC r) :
    InvC (r.Join x) := by
  rcases h with ⟨h1, h2, h3, h4, h5⟩
  by_cases hmem : hasNode r.nodes x = true
  · refine ⟨?_, ?_, ?_, ?_, ?_⟩
    · rw [Join_hashes_member r x hmem, Join_q]; exact h1
    · rw [Join_q]; exact h2
    · rw [Join_t]; exact h3
    · rw [Join_nodes]; exact setNode_fst_ne r.nodes x true h4 hx
    · rw [Join_q]
      intro i hi
      rw [Join_hashes_member r x hmem]
      exact h5 i hi
  · refine ⟨?_, ?_, ?_, ?_, ?_⟩
    · rw [Join_hashes_fresh r x hmem, Join_q, length_repairR, length_applyTokens]; exact h1
    · rw [Join_q]; exact h2
    · rw [Join_t]; exact h3
    · rw [Join_nodes]; exact setNode_fst_ne r.nodes x true h4 hx
    · rw [Join_q]
      intro i hi hrk
      rw [Join_hashes_fresh r x hmem] at hrk ⊢
      rcases getH_repairR_fields r.q (r.applyTokens x r.hashes) i with ⟨ha, hr, _⟩
      rw [ha]
      rw [hr] at hrk
      exact applyTokens_W5 r x r.hashes h5 i hi hrk

theorem Join_owned (r : RingS) (x : Bytes) (hx : x ≠ []) (h : InvC r)
    (ho : ownedHashes r) : ownedHashes (r.Join x) := by
  rcases h with ⟨h1, h2, h3, h4, h5⟩
  intro i hi
  rw [Join_q] at hi
  rw [Join_nodes]
  by_cases hmem : hasNode r.nodes x = true
  · rw [Join_hashes_member r x hmem]
    rcases ho i hi with ⟨hne, hm⟩
    exact ⟨hne, hasNode_setNode_mono _ _ _ _ hm⟩
  · rw [Join_hashes_fresh r x hmem]
    rcases join_fresh_owned r x hx h1 h2 h3 h5
        (fun j hj _ => ho j hj) i hi with ⟨hne, hm⟩
    refine ⟨hne, ?_⟩
    rcases hm with hm | hm
    · exact hasNode_setNode_mono _ _ _ _ hm
    · rw [hm]; exact hasNode_setNode_self _ _ _

theorem Join_pristine_fresh_owned (r : RingS) (x : Bytes) (hx : x ≠ []) (h : InvC r)
    (hp : pristineHashes r) (hfresh : ¬ hasNode r.nodes x = true) :
    ownedHashes (r.Join x) := by
  rcases h with ⟨h1, h2, h3, h4, h5⟩
  intro i hi
  rw [Join_q] at hi
  rw [Join_nodes, Join_hashes_fresh r x hfresh]
  rcases join_fresh_owned r x hx h1 h2 h3 h5
      (fun j hj hclj => absurd (hp j hj).2.1 hclj) i hi with ⟨hne, hm⟩
  refine ⟨hne, ?_⟩
  rcases hm with hm | hm
  · exact hasNode_setNode_mono _ _ _ _ hm
  · rw [hm]; exact hasNode_setNode_self _ _ _

theorem Join_pristine_member (r : RingS) (x : Bytes)
    (hp : pristineHashes r) (hmem : hasNode r.nodes x = true) :
    pristineHashes (r.Join x) := by
  intro i hi
  rw [Join_q] at hi
  rw [Join_hashes_member r x hmem]
  exact hp i hi

theorem Handoff_InvC (r : RingS) (x : Bytes) (hx : x ≠ []) (h : InvC r) :
    InvC (r.Handoff x) := by
  rcases h with ⟨h1, h2, h3, h4, h5⟩
  exact ⟨h1, h2, h3, setNode_fst_ne r.nodes x false h4 hx, h5⟩

theorem Handoff_owned (r : RingS) (x : Bytes) (ho : ownedHashes r) :
    ownedHashes (r.Handoff x) := by
  intro i hi
  rcases ho i hi with ⟨hne, hm⟩
  exact ⟨hne, hasNode_setNode_mono _ _ _ _ hm⟩

theorem emptyR_InvC (r : RingS) (h2 : 1 ≤ r.q) (h3 : 1 ≤ r.t) :
    InvC r.emptyR ∧ pristineHashes r.emptyR := by
  constructor
  · refine ⟨length_emptyR r, h2, h3, ?_, ?_⟩
    · intro p hp
      cases hp
    · intro i hi _
      rw [getH_emptyR r i hi]
  · intro i hi
    rw [getH_emptyR r i hi]
    exact ⟨rfl, rfl, rfl⟩

theorem joinAll_config (l : List Bytes) :
    ∀ r : RingS, (joinAll r l).q = r.q ∧ (joinAll r l).t = r.t := by
  induction l with
  | nil => intro r; exact ⟨rfl, rfl⟩
  | cons x rest ih =>
    intro r
    rcases ih (r.Join x) with ⟨hq, ht⟩
    exact ⟨hq.trans (Join_q r x), ht.trans (Join_t r x)⟩

theorem joinAll_owned (l : List Bytes) (hl : ∀ y ∈ l, y ≠ ([] : Bytes)) :
    ∀ r : RingS, InvC r → ownedHashes r →
      InvC (joinAll r l) ∧ ownedHashes (joinAll r l) := by
  induction l with
  | nil => intro r h ho; exact ⟨h, ho⟩
  | cons x rest ih =>
    intro r h ho
    have hx : x ≠ [] := hl x (List.mem_cons_self x rest)
    exact ih (fun y hy => hl y (List.mem_cons_of_mem x hy)) (r.Join x)
      (Join_InvC r x hx h) (Join_owned r x hx h ho)

/-- Reachable ring states.  `J` records the members whose membership was
established by a full (allocating) `Join` and is reset by `Leave`'s
rebuild, matching the claim's "at least one node has joined".  Node
identifiers are non-empty (spec §4.2 precondition). -/
inductive Reach : RingS → List Bytes → Prop where
  | base (m q t : Nat) (hasher : Bytes → Bytes) (hq : 1 ≤ q) (ht : 1 ≤ t) :
      Reach (newRing m q t hasher) []
  | join {r : RingS} {J : List Bytes} (x : Bytes) (hx : x ≠ []) :
      Reach r J → Reach (r.Join x) (if hasNode r.nodes x then J else x :: J)
  | handoff {r : RingS} {J : List Bytes} (x : Bytes) (hx : x ≠ []) :
      Reach r J → Reach (r.Handoff x) J
  | leave {r : RingS} {J : List Bytes} (x : Bytes) :
      Reach r J →
      Reach (r.Leave x)
        (if hasNode r.nodes x then (delNode r.nodes x).map Prod.fst else J)

theorem newRing_InvC (m q t : Nat) (hasher : Bytes → Bytes) (hq : 1 ≤ q) (ht : 1 ≤ t) :
    InvC (newRing m q t hasher) ∧ pristineHashes (newRing m q t hasher) :=
  emptyR_InvC _ hq ht

theorem reach_inv {r : RingS} {J : List Bytes} (h : Reach r J) :
    InvC r ∧ (J ≠ [] → ownedHashes r) ∧ (J = [] → pristineHashes r) := by
  induction h with
  | base m q t hasher hq ht =>
    rcases newRing_InvC m q t hasher hq ht with ⟨hinv, hpris⟩
    exact ⟨hinv, fun hJ => absurd rfl hJ, fun _ => hpris⟩
  | join x hx hr ih =>
    rcases ih with ⟨hinv, hown, hpris⟩
    rename_i r' J'
    refine ⟨Join_InvC r' x hx hinv, ?_, ?_⟩
    · intro hJ
      by_cases hmem : hasNode r'.nodes x = true
      · rw [if_pos hmem] at hJ
        by_cases hJe : J' = []
        · intro i hi
          rw [hJe] at hJ
          exact absurd rfl hJ
        · exact Join_owned r' x hx hinv (hown hJe)
      · by_cases hJe : J' = []
        · exact Join_pristine_fresh_owned r' x hx hinv (hpris hJe) hmem
        · exact Join_owned r' x hx hinv (hown hJe)
    · intro hJ
      by_cases hmem : hasNode r'.nodes x = true
      · rw [if_pos hmem] at hJ
        exact Join_pristine_member r' x (hpris hJ) hmem
      · rw [if_neg hmem] at hJ
        cases hJ
  | handoff x hx hr ih =>
    rcases ih with ⟨hinv, hown, hpris⟩
    rename_i r' J'
    refine ⟨Handoff_InvC r' x hx hinv, ?_, ?_⟩
    · intro hJ
      exact Handoff_owned r' x (hown hJ)
    · intro hJ
      intro i hi
      exact hpris hJ i hi
  | leave x hr ih =>
    rcases ih with ⟨hinv, hown, hpris⟩
    rename_i r' J'
    by_cases hmem : hasNode r'.nodes x = true
    · rw [if_pos hmem]
      have hLeave : r'.Leave x = joinAll r'.emptyR ((delNode r'.nodes x).map Prod.fst) := by
        unfold RingS.Leave
        rw [if_neg (by simp [hmem])]
      rw [hLeave]
      rcases hinv with ⟨h1, h2, h3, h4, h5⟩
      rcases emptyR_InvC r' h2 h3 with ⟨hinv0, hpris0⟩
      have hl : ∀ y ∈ (delNode r'.nodes x).map Prod.fst, y ≠ ([] : Bytes) := by
        intro y hy
        rcases List.mem_map.1 hy with ⟨p, hp, hpe⟩
        rcases List.mem_filter.1 hp with ⟨hp', _⟩
        rw [← hpe]
        exact h4 p hp'
      rcases hrest : (delNode r'.nodes x).map Prod.fst with _ | ⟨y, rest⟩
      · refine ⟨hinv0, ?_, ?_⟩
        · intro hJ
          exact absurd rfl hJ
        · intro _
          exact hpris0
      · rw [← hrest]
        have hstep : InvC (joinAll r'.emptyR ((delNode r'.nodes x).map Prod.fst)) ∧
            ownedHashes (joinAll r'.emptyR ((delNode r'.nodes x).map Prod.fst)) := by
          rw [hrest]
          have hy : y ≠ [] := hl y (by rw [hrest]; exact List.mem_cons_self y rest)
          have hyfresh : ¬ hasNode r'.emptyR.nodes y = true := by
            show ¬ hasNode [] y = true
            intro hcon
            cases (List.find?_isSome.1 hcon) with
            | intro p hp => cases hp.1
          show InvC (joinAll (r'.emptyR.Join y) rest) ∧ _
          exact joinAll_owned rest
            (fun z hz => hl z (by rw [hrest]; exact List.mem_cons_of_mem y hz))
            (r'.emptyR.Join y) (Join_InvC r'.emptyR y hy hinv0)
            (Join_pristine_fresh_owned r'.emptyR y hy hinv0 hpris0 hyfresh)
        refine ⟨hstep.1, fun _ => hstep.2, ?_⟩
        intro hJ
        rw [hrest] at hJ
        cases hJ
    · rw [if_neg (by simp [hmem])]
      have hLeave : r'.Leave x = r' := by
        unfold RingS.Leave
        rw [if_pos (by simp [hmem])]
      rw [hLeave]
      exact ⟨hinv, hown, hpris⟩

/-- **C4.** After any `Join`, `Leave` or `Handoff` completes on a ring
where at least one node has joined, every one of the `q` shard entries has
a non-empty `node` that belongs to the current member set. -/
theorem shards_owned_after_ops {r : RingS} {J : List Bytes} (h : Reach r J)
    (hJ : J ≠ []) :
    ∀ i, i < r.q → (getH r.Shards i).node ≠ [] ∧
      r.Has (getH r.Shards i).node = true :=
  fun i hi => (reach_inv h).2.1 hJ i hi

/-- Witness for C4: the ring after one `Join` on a fresh default ring. -/
theorem shards_owned_after_ops_witness :
    (getH ((newRing 8 4 1 byteHasher).Join [100]).Shards 0).node ≠ [] ∧
    ((newRing 8 4 1 byteHasher).Join [100]).Has
      (getH ((newRing 8 4 1 byteHasher).Join [100]).Shards 0).node = true :=
  shards_owned_after_ops
    (Reach.join [100] (by decide)
      (Reach.base 8 4 1 byteHasher (by decide) (by decide)))
    (by decide) 0 (by decide)

/-! ## C1: join-order determinism

The allocation loop is analysed per shard: each token of each node targets
one shard, and the Go tie-break keeps, per shard, the best token under the
strict order "lower rank first, larger address on equal rank" (an
unclaimed shard — address 0 — loses to any token).  The state after any
join sequence is characterized as `repair` applied to the per-shard best
tokens of the joined set. -/

/-- A token: rank, ring address and owning node. -/
structure Tok where
  rank : Nat
  addr : Nat
  node : Bytes
deriving DecidableEq, Repr

/-- The address of node `x`'s rank-`k` token. -/
def RingS.tokenAddr (r : RingS) (x : Bytes) (k : Nat) : Nat :=
  (r.addressHash (r.digest x k)).2

/-- The shard an address falls into. -/
def RingS.tokShard (r : RingS) (a : Nat) : Nat := (a / r.arc) % r.q

/-- All tokens of one node, in rank order. -/
def tokensOf (r : RingS) (x : Bytes) : List Tok :=
  (List.range r.t).map (fun k => ⟨k, r.tokenAddr x k, x⟩)

/-- All tokens of a node list hitting shard `s`. -/
def tokensAt (r : RingS) (l : List Bytes) (s : Nat) : List Tok :=
  (l.flatMap (tokensOf r)).filter (fun tk => r.tokShard tk.addr == s)

/-- The claim tie-break as a relation: the challenger strictly beats the
incumbent (rank 0 first, then lower rank, larger address on equal rank —
which on claimed incumbents is what the Go switch decides). -/
def bter (u v : Tok) : Prop := u.rank < v.rank ∨ (u.rank = v.rank ∧ v.addr < u.addr)

instance (u v : Tok) : Decidable (bter u v) := by unfold bter; infer_instance

/-- Keep the better token. -/
def maxStep (o : Option Tok) (tk : Tok) : Option Tok :=
  match o with
  | none => some tk
  | some p => if bter tk p then some tk else some p

/-- The per-shard best token of a node list. -/
def best (r : RingS) (l : List Bytes) (s : Nat) : Option Tok :=
  (tokensAt r l s).foldl maxStep none

/-- The Go claim switch as a single step on one shard entry. -/
def claimStep (e : Hash) (tk : Tok) : Hash :=
  if e.addr = 0 ∨ (e.rank ≠ 0 ∧ (tk.rank : Int) = 0) ∨
      (e.rank = (tk.rank : Int) ∧ e.addr < tk.addr) ∨ e.rank > (tk.rank : Int) then
    { hash := e.hash, addr := tk.addr, rank := (tk.rank : Int), node := tk.node }
  else e

/-- One token applied to the shard vector. -/
def stepTok (r : RingS) (hs : List Hash) (tk : Tok) : List Hash :=
  hs.set (r.tokShard tk.addr) (claimStep (getH hs (r.tokShard tk.addr)) tk)

/-- A token list applied to the shard vector. -/
def applyToks (r : RingS) (toks : List Tok) (hs : List Hash) : List Hash :=
  toks.foldl (stepTok r) hs

/-- The shard entry holding a best token (or the pristine entry). -/
def entryOf (h : Nat) : Option Tok → Hash
  | none => { hash := h, addr := 0, rank := -1, node := [] }
  | some tk => { hash := h, addr := tk.addr, rank := (tk.rank : Int), node := tk.node }

/-- The canonical hash of shard `s`. -/
def shardHash (r : RingS) (s : Nat) : Nat := r.addressShard (s + 1)

/-- The allocation state of a node set: per shard, its best token. -/
def allocState (r : RingS) (l : List Bytes) : List Hash :=
  (List.range r.q).map (fun s => entryOf (shardHash r s) (best r l s))

/-- The canonical shard vector of a node set: best tokens plus repair. -/
def canonicalHashes (r : RingS) (l : List Bytes) : List Hash :=
  repairR r.q (allocState r l)

/-- The canonical ring of a node set over a base configuration. -/
def canonicalRing (r : RingS) (l : List Bytes) : RingS :=
  { r with hashes := canonicalHashes r l, nodes := l.map (fun y => (y, true)) }

theorem Hash_eq_of {e e' : Hash} (h1 : e.hash = e'.hash) (h2 : e.addr = e'.addr)
    (h3 : e.rank = e'.rank) (h4 : e.node = e'.node) : e = e' := by
  cases e; cases e'
  cases h1; cases h2; cases h3; cases h4
  rfl

theorem set_getH_self {hs : List Hash} {s : Nat} (h : s < hs.length) :
    hs.set s (getH hs s) = hs := by
  apply hashes_ext (by simp)
  intro i hi
  by_cases his : i = s
  · subst his
    rw [getH_set_self (by simpa using hi)]
  · rw [getH_set_ne (Ne.symm his)]

theorem length_stepTok (r : RingS) (hs : List Hash) (tk : Tok) :
    (stepTok r hs tk).length = hs.length := by
  simp [stepTok]

theorem length_applyToks (r : RingS) (toks : List Tok) :
    ∀ hs : List Hash, (applyToks r toks hs).length = hs.length := by
  induction toks with
  | nil => intro hs; rfl
  | cons tk rest ih =>
    intro hs
    show (applyToks r rest (stepTok r hs tk)).length = _
    rw [ih, length_stepTok]

theorem getH_stepTok (r : RingS) (hs : List Hash) (tk : Tok) (i : Nat)
    (hlen : hs.length = r.q) (hq : 1 ≤ r.q) :
    getH (stepTok r hs tk) i =
      if i = r.tokShard tk.addr then claimStep (getH hs i) tk else getH hs i := by
  have hsh : r.tokShard tk.addr < hs.length := by
    rw [hlen]; exact Nat.mod_lt _ hq
  by_cases hi : i = r.tokShard tk.addr
  · subst hi
    rw [if_pos rfl, stepTok, getH_set_self hsh]
  · rw [if_neg hi, stepTok, getH_set_ne (Ne.symm hi)]

theorem if_chain4 {α : Sort u} (c1 c2 c3 c4 : Prop) [Decidable c1] [Decidable c2]
    [Decidable c3] [Decidable c4] (u e : α) :
    (if c1 then u else if c2 then u else if c3 then u else if c4 then u else e) =
      (if c1 ∨ c2 ∨ c3 ∨ c4 then u else e) := by
  split_ifs <;> first | rfl | tauto

theorem tokenStep_eq_stepTok (r : RingS) (x : Bytes) (hs : List Hash) (k : Nat)
    (hlen : hs.length = r.q) (hq : 1 ≤ r.q) :
    r.tokenStep x hs k = stepTok r hs ⟨k, r.tokenAddr x k, x⟩ := by
  have hshlt : r.tokShard (r.tokenAddr x k) < hs.length := by
    rw [hlen]; exact Nat.mod_lt _ hq
  simp only [RingS.tokenStep, stepTok, claimStep]
  rw [show (r.addressHash (r.digest x k)).1 = r.tokShard (r.tokenAddr x k) from rfl,
    show (r.addressHash (r.digest x k)).2 = r.tokenAddr x k from rfl,
    if_chain4]
  by_cases hC : (getH hs (r.tokShard (r.tokenAddr x k))).addr = 0 ∨
      ((getH hs (r.tokShard (r.tokenAddr x k))).rank ≠ 0 ∧ ((k : Int) = 0)) ∨
      ((getH hs (r.tokShard (r.tokenAddr x k))).rank = (k : Int) ∧
        (getH hs (r.tokShard (r.tokenAddr x k))).addr < r.tokenAddr x k) ∨
      (getH hs (r.tokShard (r.tokenAddr x k))).rank > (k : Int)
  · rw [if_pos hC, if_pos hC]
    rfl
  · rw [if_neg hC, if_neg hC]
    exact (set_getH_self hshlt).symm

theorem applyTokens_eq_applyToks (r : RingS) (x : Bytes) (hs : List Hash)
    (hlen : hs.length = r.q) (hq : 1 ≤ r.q) :
    r.applyTokens x hs = applyToks r (tokensOf r x) hs := by
  unfold RingS.applyTokens applyToks tokensOf
  rw [List.foldl_map]
  have : ∀ (l : List Nat) (hs : List Hash), hs.length = r.q →
      l.foldl (r.tokenStep x) hs =
        l.foldl (fun h k => stepTok r h ⟨k, r.tokenAddr x k, x⟩) hs := by
    intro l
    induction l with
    | nil => intro hs _; rfl
    | cons k rest ih =>
      intro hs hlen'
      rw [List.foldl_cons, List.foldl_cons, tokenStep_eq_stepTok r x hs k hlen' hq]
      exact ih _ (by rw [length_stepTok, hlen'])
  exact this _ hs hlen

theorem getH_applyToks (r : RingS) (toks : List Tok) (hq : 1 ≤ r.q) :
    ∀ (hs : List Hash), hs.length = r.q → ∀ s,
      getH (applyToks r toks hs) s =
        (toks.filter (fun tk => r.tokShard tk.addr == s)).foldl claimStep (getH hs s) := by
  induction toks with
  | nil => intro hs _ s; rfl
  | cons tk rest ih =>
    intro hs hlen s
    show getH (applyToks r rest (stepTok r hs tk)) s = _
    rw [ih (stepTok r hs tk) (by rw [length_stepTok, hlen]) s,
      getH_stepTok r hs tk s hlen hq]
    by_cases hsh : r.tokShard tk.addr = s
    · rw [if_pos hsh.symm,
        show (tk :: rest).filter (fun tk => r.tokShard tk.addr == s) =
          tk :: rest.filter (fun tk => r.tokShard tk.addr == s) from
          by rw [List.filter_cons_of_pos (by simpa using hsh)],
        List.foldl_cons]
    · rw [if_neg (fun h => hsh h.symm),
        show (tk :: rest).filter (fun tk => r.tokShard tk.addr == s) =
          rest.filter (fun tk => r.tokShard tk.addr == s) from
          by rw [List.filter_cons_of_neg (by simpa using hsh)]]

theorem claimStep_entryOf (h : Nat) (o : Option Tok) (tk : Tok)
    (ho : ∀ p, o = some p → p.addr ≠ 0) (htk : tk.addr ≠ 0) :
    claimStep (entryOf h o) tk = entryOf h (maxStep o tk) := by
  cases o with
  | none =>
    rw [show maxStep none tk = some tk from rfl]
    unfold claimStep entryOf
    rw [if_pos (Or.inl rfl)]
  | some p =>
    have hp := ho p rfl
    rw [show maxStep (some p) tk = if bter tk p then some tk else some p from rfl]
    by_cases hb : bter tk p
    · rw [if_pos hb]
      unfold claimStep entryOf
      rw [if_pos ?cond]
      case cond =>
        rcases hb with hlt | ⟨heq, haddr⟩
        · exact Or.inr (Or.inr (Or.inr (by show (p.rank : Int) > (tk.rank : Int); omega)))
        · exact Or.inr (Or.inr (Or.inl ⟨by show (p.rank : Int) = (tk.rank : Int); omega,
            haddr⟩))
    · rw [if_neg hb]
      unfold claimStep entryOf
      rw [if_neg ?ncond]
      case ncond =>
        unfold bter at hb
        rintro (hc | ⟨hc1, hc2⟩ | ⟨hc1, hc2⟩ | hc)
        · exact hp hc
        · apply hb
          left
          show tk.rank < p.rank
          have : p.rank ≠ 0 := by
            intro hz
            apply hc1
            show ((p.rank : Int)) = 0
            omega
          omega
        · apply hb
          right
          refine ⟨?_, hc2⟩
          have : (p.rank : Int) = (tk.rank : Int) := hc1
          omega
        · apply hb
          left
          have : (p.rank : Int) > (tk.rank : Int) := hc
          omega

theorem maxStep_sound (o : Option Tok) (tk : Tok) (ho : ∀ p, o = some p → p.addr ≠ 0)
    (htk : tk.addr ≠ 0) : ∀ p, maxStep o tk = some p → p.addr ≠ 0 := by
  intro p hp
  cases o with
  | none =>
    rw [show maxStep none tk = some tk from rfl] at hp
    rw [← Option.some_inj.1 hp]
    exact htk
  | some p' =>
    rw [show maxStep (some p') tk = if bter tk p' then some tk else some p' from rfl] at hp
    split_ifs at hp
    · rw [← Option.some_inj.1 hp]; exact htk
    · rw [← Option.some_inj.1 hp]; exact ho p' rfl

theorem foldl_claimStep_entryOf (h : Nat) (toks : List Tok) :
    ∀ (o : Option Tok), (∀ p, o = some p → p.addr ≠ 0) →
      (∀ tk ∈ toks, tk.addr ≠ 0) →
      toks.foldl claimStep (entryOf h o) = entryOf h (toks.foldl maxStep o) := by
  induction toks with
  | nil => intro o _ _; rfl
  | cons tk rest ih =>
    intro o ho htoks
    rw [List.foldl_cons, List.foldl_cons,
      claimStep_entryOf h o tk ho (htoks tk (List.mem_cons_self tk rest))]
    exact ih (maxStep o tk)
      (maxStep_sound o tk ho (htoks tk (List.mem_cons_self tk rest)))
      (fun tk' htk' => htoks tk' (List.mem_cons_of_mem tk htk'))

theorem foldl_maxStep_mem (toks : List Tok) :
    ∀ (o : Option Tok) (p : Tok), toks.foldl maxStep o = some p →
      o = some p ∨ p ∈ toks := by
  induction toks with
  | nil => intro o p h; exact Or.inl h
  | cons tk rest ih =>
    intro o p h
    rw [List.foldl_cons] at h
    rcases ih (maxStep o tk) p h with h' | h'
    · cases o with
      | none =>
        rw [show maxStep none tk = some tk from rfl] at h'
        rw [← Option.some_inj.1 h']
        exact Or.inr (List.mem_cons_self tk rest)
      | some p' =>
        rw [show maxStep (some p') tk = if bter tk p' then some tk else some p'
          from rfl] at h'
        split_ifs at h'
        · rw [← Option.some_inj.1 h']
          exact Or.inr (List.mem_cons_self tk rest)
        · exact Or.inl h'
    · exact Or.inr (List.mem_cons_of_mem tk h')

theorem foldl_maxStep_isSome (toks : List Tok) :
    ∀ (o : Option Tok), (o.isSome ∨ toks ≠ []) →
      (toks.foldl maxStep o).isSome := by
  induction toks with
  | nil =>
    intro o h
    rcases h with h | h
    · exact h
    · exact absurd rfl h
  | cons tk rest ih =>
    intro o _
    rw [List.foldl_cons]
    apply ih
    left
    cases o with
    | none => rfl
    | some p =>
      rw [show maxStep (some p) tk = if bter tk p then some tk else some p from rfl]
      split_ifs <;> rfl

theorem mem_tokensOf {r : RingS} {y : Bytes} {tk : Tok} :
    tk ∈ tokensOf r y ↔ ∃ k, k < r.t ∧ tk = ⟨k, r.tokenAddr y k, y⟩ := by
  unfold tokensOf
  rw [List.mem_map]
  constructor
  · rintro ⟨k, hk, hke⟩
    exact ⟨k, List.mem_range.1 hk, hke.symm⟩
  · rintro ⟨k, hk, hke⟩
    exact ⟨k, List.mem_range.2 hk, hke.symm⟩

theorem mem_tokensAt {r : RingS} {l : List Bytes} {s : Nat} {tk : Tok}
    (h : tk ∈ tokensAt r l s) :
    ∃ y ∈ l, ∃ k, k < r.t ∧ tk = ⟨k, r.tokenAddr y k, y⟩ := by
  unfold tokensAt at h
  rcases List.mem_filter.1 h with ⟨hmem, _⟩
  rcases List.mem_flatMap.1 hmem with ⟨y, hy, hty⟩
  rcases mem_tokensOf.1 hty with ⟨k, hk, hke⟩
  exact ⟨y, hy, k, hk, hke⟩

theorem tokensAt_append (r : RingS) (l1 l2 : List Bytes) (s : Nat) :
    tokensAt r (l1 ++ l2) s = tokensAt r l1 s ++ tokensAt r l2 s := by
  unfold tokensAt
  rw [List.flatMap_append, List.filter_append]

theorem length_allocState (r : RingS) (l : List Bytes) :
    (allocState r l).length = r.q := by
  simp [allocState]

theorem getH_allocState (r : RingS) (l : List Bytes) (s : Nat) (hs : s < r.q) :
    getH (allocState r l) s = entryOf (shardHash r s) (best r l s) := by
  unfold allocState getH
  rw [List.getD_eq_getElem?_getD, List.getElem?_map, List.getElem?_range hs]
  rfl

theorem best_sound (r : RingS) (l : List Bytes) (s : Nat)
    (hz : ∀ y ∈ l, ∀ k, k < r.t → r.tokenAddr y k ≠ 0) :
    ∀ p, best r l s = some p → p.addr ≠ 0 := by
  intro p hp
  rcases foldl_maxStep_mem _ _ _ hp with h' | h'
  · cases h'
  · rcases mem_tokensAt h' with ⟨y, hy, k, hk, hke⟩
    rw [hke]
    exact hz y hy k hk

theorem applyToks_allocState (r : RingS) (l : List Bytes) (x : Bytes)
    (hq : 1 ≤ r.q)
    (hzl : ∀ y ∈ l, ∀ k, k < r.t → r.tokenAddr y k ≠ 0)
    (hzx : ∀ k, k < r.t → r.tokenAddr x k ≠ 0) :
    applyToks r (tokensOf r x) (allocState r l) = allocState r (l ++ [x]) := by
  apply hashes_ext
  · rw [length_applyToks, length_allocState, length_allocState]
  · intro s hs
    have hs' : s < r.q := by rwa [length_applyToks, length_allocState] at hs
    rw [getH_applyToks r (tokensOf r x) hq (allocState r l) (length_allocState r l) s,
      getH_allocState r l s hs', getH_allocState r (l ++ [x]) s hs']
    have hfil : ∀ tk ∈ (tokensOf r x).filter (fun tk => r.tokShard tk.addr == s),
        tk.addr ≠ 0 := by
      intro tk htk
      rcases mem_tokensOf.1 (List.mem_filter.1 htk).1 with ⟨k, hk, hke⟩
      rw [hke]
      exact hzx k hk
    rw [foldl_claimStep_entryOf (shardHash r s) _ (best r l s)
      (best_sound r l s hzl) hfil]
    congr 1
    unfold best
    rw [tokensAt_append, List.foldl_append]
    congr 1
    unfold tokensAt
    rw [show ([x] : List Bytes).flatMap (tokensOf r) = tokensOf r x from by
      simp [List.flatMap]]

/-- Agreement of two shard vectors on everything the allocation decisions
and the final repair can observe: lengths, `hash`, `addr`, `rank`
everywhere, and `node` on claimed entries. -/
def arEq (hs hs' : List Hash) : Prop :=
  hs.length = hs'.length ∧ ∀ i,
    (getH hs i).hash = (getH hs' i).hash ∧
    (getH hs i).addr = (getH hs' i).addr ∧
    (getH hs i).rank = (getH hs' i).rank ∧
    ((getH hs i).rank ≠ -1 → (getH hs i).node = (getH hs' i).node)

theorem getH_repair1_claimed (q : Nat) (hs : List Hash) (i : Nat)
    (h : (getH hs i).rank ≠ -1) : getH (repair1 q hs) i = getH hs i := by
  rcases Nat.eq_zero_or_pos i with rfl | hi
  · by_cases h1 : (getH hs 0).rank = -1
    · exact absurd h1 h
    · rw [repair1, if_neg h1]
  · exact getH_repair1_pos q hs i hi

theorem getH_repair2_claimed (q : Nat) (hs : List Hash) (i : Nat)
    (h : (getH hs i).rank ≠ -1) : getH (repair2 q hs) i = getH hs i := by
  unfold repair2
  generalize List.range' 1 (q - 1) = l
  induction l generalizing hs with
  | nil => rfl
  | cons k rest ih =>
    rw [List.foldl_cons]
    by_cases hc : (getH hs k).rank = -1
    · rw [if_pos hc]
      have hik : i ≠ k := by
        intro he
        rw [he] at h
        exact h hc
      have hpre : getH (updateNode hs k (getH hs (k - 1))) i = getH hs i := by
        rw [updateNode]
        exact getH_set_ne (Ne.symm hik) _
      rw [ih (updateNode hs k (getH hs (k - 1))) (by rw [hpre]; exact h), hpre]
    · rw [if_neg hc]
      exact ih hs h

theorem getH_repairR_claimed (q : Nat) (hs : List Hash) (i : Nat)
    (h : (getH hs i).rank ≠ -1) : getH (repairR q hs) i = getH hs i := by
  unfold repairR
  rw [getH_repair2_claimed q (repair1 q hs) i
    (by rw [(getH_repair1_fields q hs i).2.1]; exact h)]
  exact getH_repair1_claimed q hs i h

theorem arEq_repairR (q : Nat) (hs : List Hash) : arEq (repairR q hs) hs := by
  refine ⟨length_repairR q hs, ?_⟩
  intro i
  rcases getH_repairR_fields q hs i with ⟨ha, hr, hh⟩
  refine ⟨hh, ha, hr, ?_⟩
  intro hcl
  rw [getH_repairR_claimed q hs i (by rw [← hr]; exact hcl)]

theorem arEq_stepTok (r : RingS) (tk : Tok) {hs hs' : List Hash}
    (h : arEq hs hs') (hlen : hs.length = r.q) (hq : 1 ≤ r.q) :
    arEq (stepTok r hs tk) (stepTok r hs' tk) := by
  rcases h with ⟨hl, hcomp⟩
  have hlen' : hs'.length = r.q := by rw [← hl]; exact hlen
  refine ⟨by rw [length_stepTok, length_stepTok, hl], ?_⟩
  intro i
  rw [getH_stepTok r hs tk i hlen hq, getH_stepTok r hs' tk i hlen' hq]
  by_cases hi : i = r.tokShard tk.addr
  · rw [if_pos hi, if_pos hi]
    rcases hcomp i with ⟨hh, ha, hr, hn⟩
    unfold claimStep
    by_cases hc : (getH hs i).addr = 0 ∨
        ((getH hs i).rank ≠ 0 ∧ ((tk.rank : Int) = 0)) ∨
        ((getH hs i).rank = (tk.rank : Int) ∧ (getH hs i).addr < tk.addr) ∨
        (getH hs i).rank > (tk.rank : Int)
    · rw [if_pos hc, if_pos (by rw [← ha, ← hr]; exact hc)]
      exact ⟨by rw [hh], rfl, rfl, fun _ => rfl⟩
    · rw [if_neg hc, if_neg (by rw [← ha, ← hr]; exact hc)]
      exact ⟨hh, ha, hr, hn⟩
  · rw [if_neg hi, if_neg hi]
    exact hcomp i

theorem arEq_applyToks (r : RingS) (toks : List Tok) (hq : 1 ≤ r.q) :
    ∀ {hs hs' : List Hash}, arEq hs hs' → hs.length = r.q →
      arEq (applyToks r toks hs) (applyToks r toks hs') := by
  induction toks with
  | nil => intro hs hs' h _; exact h
  | cons tk rest ih =>
    intro hs hs' h hlen
    show arEq (applyToks r rest (stepTok r hs tk)) (applyToks r rest (stepTok r hs' tk))
    exact ih (arEq_stepTok r tk h hlen hq) (by rw [length_stepTok, hlen])

theorem scanDownO_congr {hs hs' : List Hash}
    (h : ∀ j, (getH hs j).rank = (getH hs' j).rank) :
    ∀ j, scanDownO hs j = scanDownO hs' j := by
  intro j
  induction j with
  | zero =>
    rw [scanDownO, scanDownO, h 0]
  | succ j ih =>
    rw [scanDownO, scanDownO, h (j + 1)]
    by_cases hc : (getH hs' (j + 1)).rank ≠ -1
    · rw [if_pos hc, if_pos hc]
    · rw [if_neg hc, if_neg hc, ih]

theorem prevClaimedIdx_congr {hs hs' : List Hash} {q : Nat}
    (h : ∀ j, (getH hs j).rank = (getH hs' j).rank) (i : Nat) :
    prevClaimedIdx hs q i = prevClaimedIdx hs' q i := by
  unfold prevClaimedIdx
  rw [scanDownO_congr h (q - 1)]
  by_cases h0 : i = 0
  · rw [if_pos h0, if_pos h0]
  · rw [if_neg h0, if_neg h0, scanDownO_congr h (i - 1)]

theorem repairR_congr_arEq {q : Nat} {hs hs' : List Hash} (h : arEq hs hs')
    (hlen : hs.length = q) (hq : 1 ≤ q)
    (hcl : ∃ c, c < q ∧ (getH hs c).rank ≠ -1) :
    repairR q hs = repairR q hs' := by
  rcases h with ⟨hl, hcomp⟩
  have hlen' : hs'.length = q := by rw [← hl]; exact hlen
  have hranks : ∀ j, (getH hs j).rank = (getH hs' j).rank := fun j => (hcomp j).2.2.1
  have hcl' : ∃ c, c < q ∧ (getH hs' c).rank ≠ -1 := by
    rcases hcl with ⟨c, hc, hccl⟩
    exact ⟨c, hc, by rw [← hranks c]; exact hccl⟩
  rw [repairR_eq_repairSpec q hs hlen hq hcl, repairR_eq_repairSpec q hs' hlen' hq hcl']
  apply hashes_ext
  · rw [length_repairSpec, length_repairSpec, hl]
  · intro i hi
    have hi' : i < hs.length := by rwa [length_repairSpec] at hi
    rw [getH_repairSpec q hs i hi', getH_repairSpec q hs' i (by rw [← hl]; exact hi')]
    unfold specEntry
    rw [← hranks i]
    by_cases hu : (getH hs i).rank = -1
    · rw [if_pos hu, if_pos hu, prevClaimedIdx_congr hranks i]
      have hsome : (prevClaimedIdx hs' q i).isSome :=
        prevClaimedIdx_isSome hq hcl'
      rw [← prevClaimedIdx_congr hranks i] at hsome
      rcases hj : prevClaimedIdx hs q i with _ | j
      · rw [hj] at hsome; cases hsome
      · have hj' : prevClaimedIdx hs' q i = some j := by
          rw [← prevClaimedIdx_congr hranks i]; exact hj
        rw [hj']
        rcases hcomp i with ⟨hh, ha, _, _⟩
        rcases hcomp j with ⟨_, _, _, hnj⟩
        have hjcl : (getH hs j).rank ≠ -1 := prevClaimedIdx_claimed_res hj
        exact Hash_eq_of hh ha (by rw [hranks i]) (hnj hjcl)
    · rw [if_neg hu, if_neg hu]
      rcases hcomp i with ⟨hh, ha, hr, hn⟩
      exact Hash_eq_of hh ha hr (hn hu)

theorem scanDown1_none {hs : List Hash} :
    ∀ j, (∀ i, 1 ≤ i → i ≤ j → (getH hs i).rank = -1) → scanDown1 hs j = none := by
  intro j
  induction j with
  | zero => intro _; rfl
  | succ j ih =>
    intro h
    rw [scanDown1, if_neg (by simpa using h (j + 1) (by omega) (by omega))]
    exact ih (fun i h1 h2 => h i h1 (by omega))

theorem repairR_pristine (q : Nat) (hs : List Hash) (hlen : hs.length = q)
    (hq : 1 ≤ q)
    (hpr : ∀ i, i < q → (getH hs i).rank = -1 ∧ (getH hs i).node = []) :
    repairR q hs = hs := by
  unfold repairR
  have h1 : repair1 q hs = hs := by
    rw [repair1]
    by_cases h0 : (getH hs 0).rank = -1
    · rw [if_pos h0, scanDown1_none (q - 1) (fun i hi1 hi2 => (hpr i (by omega)).1)]
    · rw [if_neg h0]
  rw [h1]
  unfold repair2
  have hstep : ∀ (l : List Nat), (∀ i ∈ l, 1 ≤ i ∧ i < q) →
      l.foldl (fun h i => if (getH h i).rank = -1 then updateNode h i (getH h (i - 1))
        else h) hs = hs := by
    intro l
    induction l with
    | nil => intro _; rfl
    | cons k rest ih =>
      intro hb
      rcases hb k (List.mem_cons_self k rest) with ⟨hk1, hk2⟩
      rw [List.foldl_cons, if_pos (hpr k hk2).1]
      have hupd : updateNode hs k (getH hs (k - 1)) = hs := by
        rw [updateNode]
        have : { getH hs k with node := (getH hs (k - 1)).node } = getH hs k :=
          Hash_eq_of rfl rfl rfl
            (by rw [(hpr (k - 1) (by omega)).2, (hpr k hk2).2])
        rw [this]
        exact set_getH_self (by omega)
      rw [hupd]
      exact ih (fun i hi => hb i (List.mem_cons_of_mem k hi))
  apply hstep
  intro i hi
  have := List.mem_range'_1.1 hi
  omega

theorem hasNode_map_pairs (l : List Bytes) (x : Bytes) :
    hasNode (l.map (fun y => (y, true))) x = true ↔ x ∈ l := by
  rw [hasNode_iff_mem, List.map_map]
  rw [show (Prod.fst ∘ fun y => ((y, true) : Bytes × Bool)) = id from rfl, List.map_id]

theorem setNode_fresh (l : List (Bytes × Bool)) (k : Bytes) (v : Bool)
    (h : ¬ hasNode l k = true) : setNode l k v = l ++ [(k, v)] := by
  rw [setNode, if_neg h]

theorem RingS_eq_of {a b : RingS} (hm : a.m = b.m) (hq : a.q = b.q) (ht : a.t = b.t)
    (hh : a.hasher = b.hasher) (harc : a.arc = b.arc) (hhs : a.hashes = b.hashes)
    (hn : a.nodes = b.nodes) : a = b := by
  cases a; cases b
  cases hm; cases hq; cases ht; cases hh; cases harc; cases hhs; cases hn
  rfl

theorem canonicalRing_nil (m q t : Nat) (hasher : Bytes → Bytes) (hq : 1 ≤ q) :
    canonicalRing (newRing m q t hasher) [] = newRing m q t hasher := by
  have hlenR : (newRing m q t hasher).hashes.length = (newRing m q t hasher).q :=
    length_emptyR _
  have hpr : ∀ i, i < (newRing m q t hasher).q →
      (getH (newRing m q t hasher).hashes i).rank = -1 ∧
      (getH (newRing m q t hasher).hashes i).node = [] := by
    intro i hi
    have he : getH (newRing m q t hasher).hashes i =
        { hash := (newRing m q t hasher).addressShard (i + 1), addr := 0, rank := -1,
          node := [] } := getH_emptyR _ i hi
    rw [he]
    exact ⟨rfl, rfl⟩
  have hhashes : canonicalHashes (newRing m q t hasher) [] =
      (newRing m q t hasher).hashes := by
    unfold canonicalHashes
    have halloc : allocState (newRing m q t hasher) [] = (newRing m q t hasher).hashes := by
      apply hashes_ext
      · rw [length_allocState, hlenR]
      · intro s hs
        have hs' : s < (newRing m q t hasher).q := by
          rwa [length_allocState] at hs
        rw [getH_allocState _ [] s hs']
        have he : getH (newRing m q t hasher).hashes s =
            { hash := (newRing m q t hasher).addressShard (s + 1), addr := 0, rank := -1,
              node := [] } := getH_emptyR _ s hs'
        rw [he]
        rfl
    rw [halloc]
    exact repairR_pristine _ _ hlenR hq hpr
  exact RingS_eq_of rfl rfl rfl rfl rfl hhashes rfl

theorem Join_m (r : RingS) (x : Bytes) : (r.Join x).m = r.m := by
  unfold RingS.Join; split_ifs <;> rfl

theorem Join_hasher (r : RingS) (x : Bytes) : (r.Join x).hasher = r.hasher := by
  unfold RingS.Join; split_ifs <;> rfl

theorem Join_arc (r : RingS) (x : Bytes) : (r.Join x).arc = r.arc := by
  unfold RingS.Join; split_ifs <;> rfl

theorem length_canonicalHashes (r : RingS) (l : List Bytes) :
    (canonicalHashes r l).length = r.q := by
  unfold canonicalHashes
  rw [length_repairR, length_allocState]

theorem digest_congr {r r' : RingS} (hh : r'.hasher = r.hasher) (x : Bytes) :
    ∀ k, r'.digest x k = r.digest x k := by
  intro k
  induction k with
  | zero =>
    show r'.hasher x = r.hasher x
    rw [hh]
  | succ k ih =>
    show r'.hasher (x ++ r'.digest x k) = r.hasher (x ++ r.digest x k)
    rw [hh, ih]

theorem tokenStep_congr {r r' : RingS} (hm : r'.m = r.m) (hq : r'.q = r.q)
    (hh : r'.hasher = r.hasher) (harc : r'.arc = r.arc) (x : Bytes) :
    r'.tokenStep x = r.tokenStep x := by
  funext hs k
  unfold RingS.tokenStep RingS.addressHash RingS.digestAddr
  rw [digest_congr hh x k, hm, hq, harc]

theorem applyTokens_congr (r r' : RingS) (hm : r'.m = r.m) (hq : r'.q = r.q)
    (ht : r'.t = r.t) (hh : r'.hasher = r.hasher) (harc : r'.arc = r.arc)
    (x : Bytes) (hs : List Hash) : r'.applyTokens x hs = r.applyTokens x hs := by
  unfold RingS.applyTokens
  rw [ht, tokenStep_congr hm hq hh harc]

/-- Joining a fresh node onto the canonical ring of a node set produces the
canonical ring of the extended node set, provided no token address is 0 and
shard counts are positive. -/
theorem Join_canonical (r : RingS) (l : List Bytes) (x : Bytes)
    (hq : 1 ≤ r.q) (ht : 1 ≤ r.t) (hxl : x ∉ l)
    (hzl : ∀ y ∈ l, ∀ k, k < r.t → r.tokenAddr y k ≠ 0)
    (hzx : ∀ k, k < r.t → r.tokenAddr x k ≠ 0) :
    (canonicalRing r l).Join x = canonicalRing r (l ++ [x]) := by
  have hfresh : ¬ hasNode (canonicalRing r l).nodes x = true :=
    fun h => hxl ((hasNode_map_pairs l x).1 h)
  have hlenC : (canonicalHashes r l).length = r.q := length_canonicalHashes r l
  have h1 : r.applyTokens x (canonicalHashes r l) =
      applyToks r (tokensOf r x) (canonicalHashes r l) :=
    applyTokens_eq_applyToks r x _ hlenC hq
  have hAR : arEq (canonicalHashes r l) (allocState r l) := arEq_repairR r.q _
  have h2 : arEq (applyToks r (tokensOf r x) (canonicalHashes r l))
      (applyToks r (tokensOf r x) (allocState r l)) :=
    arEq_applyToks r _ hq hAR hlenC
  have h3 : applyToks r (tokensOf r x) (allocState r l) = allocState r (l ++ [x]) :=
    applyToks_allocState r l x hq hzl hzx
  have hs' : r.tokShard (r.tokenAddr x 0) < r.q := Nat.mod_lt _ hq
  have hmem : (⟨0, r.tokenAddr x 0, x⟩ : Tok) ∈
      tokensAt r (l ++ [x]) (r.tokShard (r.tokenAddr x 0)) := by
    unfold tokensAt
    refine List.mem_filter.2 ⟨?_, by simp⟩
    refine List.mem_flatMap.2 ⟨x, by simp, ?_⟩
    exact mem_tokensOf.2 ⟨0, ht, rfl⟩
  have hbest : (best r (l ++ [x]) (r.tokShard (r.tokenAddr x 0))).isSome := by
    unfold best
    exact foldl_maxStep_isSome _ none (Or.inr (List.ne_nil_of_mem hmem))
  have hclA : (getH (allocState r (l ++ [x])) (r.tokShard (r.tokenAddr x 0))).rank ≠ -1 := by
    rw [getH_allocState r (l ++ [x]) _ hs']
    rcases Option.isSome_iff_exists.1 hbest with ⟨tk, htk⟩
    rw [htk]
    show ((tk.rank : Int)) ≠ -1
    omega
  have hcl : ∃ c, c < r.q ∧
      (getH (applyToks r (tokensOf r x) (canonicalHashes r l)) c).rank ≠ -1 := by
    refine ⟨r.tokShard (r.tokenAddr x 0), hs', ?_⟩
    rcases h2 with ⟨_, hcomp⟩
    rcases hcomp (r.tokShard (r.tokenAddr x 0)) with ⟨_, _, hr, _⟩
    rw [hr, h3]
    exact hclA
  have h4 : repairR r.q (applyToks r (tokensOf r x) (canonicalHashes r l)) =
      repairR r.q (applyToks r (tokensOf r x) (allocState r l)) :=
    repairR_congr_arEq h2 (by rw [length_applyToks, hlenC]) hq hcl
  have hhashes : repairR r.q (r.applyTokens x (canonicalHashes r l)) =
      canonicalHashes r (l ++ [x]) := by
    rw [h1, h4, h3]
    rfl
  have hfresh' : ¬ hasNode (l.map (fun y => (y, true))) x = true := hfresh
  have hnodes : setNode (l.map (fun y => (y, true))) x true =
      (l ++ [x]).map (fun y => (y, true)) := by
    rw [setNode_fresh _ x true hfresh', List.map_append]
    rfl
  have hmid : repairR (canonicalRing r l).q
      ((canonicalRing r l).applyTokens x (canonicalRing r l).hashes) =
      canonicalHashes r (l ++ [x]) := by
    rw [show (canonicalRing r l).hashes = canonicalHashes r l from rfl,
      applyTokens_congr r (canonicalRing r l) rfl rfl rfl rfl rfl x (canonicalHashes r l),
      show (canonicalRing r l).q = r.q from rfl]
    exact hhashes
  have hnd : setNode (canonicalRing r l).nodes x true =
      (l ++ [x]).map (fun y => (y, true)) := hnodes
  exact RingS_eq_of (Join_m _ x) (Join_q _ x) (Join_t _ x) (Join_hasher _ x)
    (Join_arc _ x) ((Join_hashes_fresh _ x hfresh).trans hmid)
    ((Join_nodes _ x).trans hnd)

/-- Folding `Join` over fresh nodes extends the canonical ring node by node. -/
theorem joinAll_canonical (r : RingS) (hq : 1 ≤ r.q) (ht : 1 ≤ r.t) :
    ∀ (l2 l1 : List Bytes), (l1 ++ l2).Nodup →
      (∀ y ∈ l1 ++ l2, ∀ k, k < r.t → r.tokenAddr y k ≠ 0) →
      joinAll (canonicalRing r l1) l2 = canonicalRing r (l1 ++ l2) := by
  intro l2
  induction l2 with
  | nil =>
    intro l1 _ _
    rw [List.append_nil]
    rfl
  | cons x rest ih =>
    intro l1 hnd hz
    have hx1 : x ∉ l1 := by
      intro hmem
      rcases List.nodup_append.1 hnd with ⟨_, _, hdisj⟩
      exact hdisj hmem (List.mem_cons_self x rest)
    have hzl : ∀ y ∈ l1, ∀ k, k < r.t → r.tokenAddr y k ≠ 0 :=
      fun y hy => hz y (List.mem_append.2 (Or.inl hy))
    have hzx : ∀ k, k < r.t → r.tokenAddr x k ≠ 0 :=
      hz x (List.mem_append.2 (Or.inr (List.mem_cons_self x rest)))
    show joinAll ((canonicalRing r l1).Join x) rest = _
    rw [Join_canonical r l1 x hq ht hx1 hzl hzx]
    have hre : l1 ++ [x] ++ rest = l1 ++ x :: rest := by simp
    have hstep := ih (l1 ++ [x]) (by rw [hre]; exact hnd) (by rw [hre]; exact hz)
    rw [hstep, hre]

theorem bter_trans {u v w : Tok} (h1 : bter u v) (h2 : bter v w) : bter u w := by
  unfold bter at h1 h2 ⊢
  omega

theorem bter_total_eq {u v : Tok} (h1 : ¬ bter u v) (h2 : ¬ bter v u) :
    u.rank = v.rank ∧ u.addr = v.addr := by
  unfold bter at h1 h2
  omega

theorem maxStep_pair (u v : Tok) :
    maxStep (some u) v = if bter v u then some v else some u := rfl

/-- `maxStep` is left-commutative on tokens that are distinguished by their
(rank, addr) pair. -/
theorem maxStep_comm (a b : Tok) (h : a.rank = b.rank → a.addr = b.addr → a = b)
    (o : Option Tok) : maxStep (maxStep o a) b = maxStep (maxStep o b) a := by
  have key : ¬ bter a b → ¬ bter b a → a = b := by
    intro h1 h2
    rcases bter_total_eq h1 h2 with ⟨hr, ha⟩
    exact h hr ha
  have base : maxStep (some a) b = maxStep (some b) a := by
    rw [maxStep_pair, maxStep_pair]
    by_cases h1 : bter b a
    · rw [if_pos h1]
      by_cases h2 : bter a b
      · exfalso; unfold bter at h1 h2; omega
      · rw [if_neg h2]
    · rw [if_neg h1]
      by_cases h2 : bter a b
      · rw [if_pos h2]
      · rw [if_neg h2, key h2 h1]
  cases o with
  | none => exact base
  | some p =>
    show maxStep (maxStep (some p) a) b = maxStep (maxStep (some p) b) a
    rw [maxStep_pair, maxStep_pair]
    by_cases hap : bter a p
    · rw [if_pos hap]
      by_cases hbp : bter b p
      · rw [if_pos hbp]; exact base
      · rw [if_neg hbp, maxStep_pair, maxStep_pair,
          if_neg (fun hba => hbp (bter_trans hba hap)), if_pos hap]
    · rw [if_neg hap]
      by_cases hbp : bter b p
      · rw [if_pos hbp, maxStep_pair, maxStep_pair, if_pos hbp,
          if_neg (fun hab => hap (bter_trans hab hbp))]
      · rw [if_neg hbp, maxStep_pair, maxStep_pair, if_neg hbp, if_neg hap]

theorem tokensAt_perm (r : RingS) {l1 l2 : List Bytes} (p : l1.Perm l2) (s : Nat) :
    (tokensAt r l1 s).Perm (tokensAt r l2 s) := by
  unfold tokensAt
  exact (p.flatMap_right (tokensOf r)).filter _

/-- When no two distinct members share a token address at the same rank,
tokens hitting a shard are distinguished by their (rank, addr) pair. -/
theorem tokensAt_uniq (r : RingS) (l : List Bytes) (s : Nat)
    (htie : ∀ y ∈ l, ∀ z ∈ l, y ≠ z → ∀ k, k < r.t →
      r.tokenAddr y k ≠ r.tokenAddr z k) :
    ∀ a ∈ tokensAt r l s, ∀ b ∈ tokensAt r l s,
      a.rank = b.rank → a.addr = b.addr → a = b := by
  intro a ha b hb hr hadr
  rcases mem_tokensAt ha with ⟨y, hy, k, hk, hae⟩
  rcases mem_tokensAt hb with ⟨z, hz, j, hj, hbe⟩
  subst hae
  subst hbe
  have hkj : k = j := hr
  subst hkj
  have haddr : r.tokenAddr y k = r.tokenAddr z k := hadr
  by_cases hyz : y = z
  · subst hyz
    rfl
  · exact absurd haddr (htie y hy z hz hyz k hk)

theorem best_perm (r : RingS) {l1 l2 : List Bytes} (p : l1.Perm l2) (s : Nat)
    (huniq : ∀ a ∈ tokensAt r l1 s, ∀ b ∈ tokensAt r l1 s,
      a.rank = b.rank → a.addr = b.addr → a = b) :
    best r l1 s = best r l2 s := by
  unfold best
  exact (tokensAt_perm r p s).foldl_eq'
    (fun a ha b hb o => maxStep_comm a b (huniq a ha b hb) o) none

/-- The canonical shard vector depends only on the node set, not its order,
provided distinct members never collide on a same-rank token address. -/
theorem canonicalHashes_perm (r : RingS) {l1 l2 : List Bytes} (p : l1.Perm l2)
    (htie : ∀ y ∈ l1, ∀ z ∈ l1, y ≠ z → ∀ k, k < r.t →
      r.tokenAddr y k ≠ r.tokenAddr z k) :
    canonicalHashes r l1 = canonicalHashes r l2 := by
  unfold canonicalHashes allocState
  congr 1
  apply List.map_congr_left
  intro s _
  rw [best_perm r p s (tokensAt_uniq r l1 s htie)]

/-- **C1** (counterexample): the claim fails as stated — joining the same
two-node set in its two orders yields different shard vectors when both
nodes collide on the same token address, because the Go tie-break switch
keeps the first-joined node on an exact (rank, addr) tie. -/
theorem join_order_counterexample :
    ([[65], [66]] : List Bytes).Perm [[66], [65]] ∧
    (joinAll (newRing 8 1 1 oneHasher) [[65], [66]]).Shards ≠
      (joinAll (newRing 8 1 1 oneHasher) [[66], [65]]).Shards :=
  ⟨by decide, by decide⟩

/-- **C1** (amended): for a fixed configuration with `q, t ≥ 1` and a
duplicate-free node set in which no token has ring address 0 and no two
distinct nodes collide on a same-rank token address, `Shards()` after
joining every node agrees entry-by-entry (hash, addr, rank and node)
across all join orders. -/
theorem join_order_determinism (m q t : Nat) (hasher : Bytes → Bytes)
    (hq : 1 ≤ q) (ht : 1 ≤ t) (l1 l2 : List Bytes)
    (hperm : l1.Perm l2) (hnd : l1.Nodup)
    (hz : ∀ y ∈ l1, ∀ k, k < t → (newRing m q t hasher).tokenAddr y k ≠ 0)
    (htie : ∀ y ∈ l1, ∀ z ∈ l1, y ≠ z → ∀ k, k < t →
      (newRing m q t hasher).tokenAddr y k ≠ (newRing m q t hasher).tokenAddr z k) :
    (joinAll (newRing m q t hasher) l1).Shards =
      (joinAll (newRing m q t hasher) l2).Shards := by
  have h1 := joinAll_canonical (newRing m q t hasher) hq ht l1 [] hnd hz
  rw [canonicalRing_nil m q t hasher hq] at h1
  have hz2 : ∀ y ∈ l2, ∀ k, k < t → (newRing m q t hasher).tokenAddr y k ≠ 0 :=
    fun y hy => hz y (hperm.mem_iff.2 hy)
  have h2 := joinAll_canonical (newRing m q t hasher) hq ht l2 []
    (hperm.nodup_iff.1 hnd) hz2
  rw [canonicalRing_nil m q t hasher hq] at h2
  rw [h1, h2]
  show canonicalHashes (newRing m q t hasher) l1 =
    canonicalHashes (newRing m q t hasher) l2
  exact canonicalHashes_perm (newRing m q t hasher) hperm htie

/-- Witness for the amended C1 theorem: a concrete two-node, two-shard
ring joined in both orders. -/
theorem join_order_determinism_witness :
    (joinAll (newRing 8 2 1 byteHasher) [[10], [20]]).Shards =
      (joinAll (newRing 8 2 1 byteHasher) [[20], [10]]).Shards :=
  join_order_determinism 8 2 1 byteHasher (by decide) (by decide)
    [[10], [20]] [[20], [10]] (by decide) (by decide) (by decide) (by decide)
